import Mathlib

/-!
Verification of the avalanche-types message wire-encoding and
key/address derivation layer.

Byte strings are modelled as `List Nat` with each element below 256;
text is modelled as `List Char`.  Machine integers are `Nat` with
explicit reduction modulo powers of two where the source wraps.
-/

namespace Avalanche

/-- Big-endian 4-byte encoding of a 32-bit value (the source packs
`u32` fields and length headers this way). -/
def u32be (n : Nat) : List Nat :=
  [n / 16777216 % 256, n / 65536 % 256, n / 256 % 256, n % 256]

/-- Read the first four bytes of a byte string as a big-endian 32-bit
value (how a consumer interprets the outer length header). -/
def readBE32 (bs : List Nat) : Nat :=
  match bs with
  | b0 :: b1 :: b2 :: b3 :: _ => ((b0 * 256 + b1) * 256 + b2) * 256 + b3
  | _ => 0

/-- Modelled from the spec: the Packer is a growable byte buffer with
primitive write operations; `src/` only contains its callers.  Spec
4.1: `pack_byte`, `pack_bool`, `pack_u32` append fixed-width
big-endian encodings; `pack_bytes` appends raw bytes with no length
header; `pack_bytes_with_header` appends a 4-byte big-endian length
followed by the bytes; `take_bytes` prepends a 4-byte big-endian
total-length header counting every byte written after it. -/
structure Packer where
  buf : List Nat

def Packer.empty : Packer := ⟨[]⟩

def Packer.pack_byte (p : Packer) (b : Nat) : Packer :=
  ⟨p.buf ++ [b % 256]⟩

def Packer.pack_bool (p : Packer) (b : Bool) : Packer :=
  ⟨p.buf ++ [if b then 1 else 0]⟩

def Packer.pack_u32 (p : Packer) (n : Nat) : Packer :=
  ⟨p.buf ++ u32be (n % 4294967296)⟩

def Packer.pack_bytes (p : Packer) (bs : List Nat) : Packer :=
  ⟨p.buf ++ bs⟩

def Packer.pack_bytes_with_header (p : Packer) (bs : List Nat) : Packer :=
  ⟨p.buf ++ u32be (bs.length % 4294967296) ++ bs⟩

def Packer.take_bytes (p : Packer) : List Nat :=
  u32be (p.buf.length % 4294967296) ++ p.buf

/-- Modelled from the spec and pinned by the tests in `src/`: the Type
Registry is a static map from message-kind name to a 1-byte type code;
the tests fix `app_response` to `0x15` and `state_summary_frontier` to
`0x18`. -/
def TYPES : List (String × Nat) :=
  [("app_response", 21), ("state_summary_frontier", 24)]

/-- Serialization failure: the variant's name is absent from the Type
Registry (`Error::new(ErrorKind::InvalidInput, "unknown type name")`
in the source). -/
inductive MsgError where
  | unknownType
deriving DecidableEq, Repr

namespace app_response

/-- `message::app_response::Message` from `src/src/message/app_response.rs`. -/
structure Message where
  chain_id : List Nat
  request_id : Nat
  app_bytes : List Nat

/-- `serialize_with_header` of `app_response::Message`, parametrized by
the registry it consults (`message::TYPES` in the source). -/
def serializeWith (registry : List (String × Nat)) (m : Message) :
    Except MsgError (List Nat) :=
  match registry.lookup "app_response" with
  | none => .error .unknownType
  | some type_id =>
    let packer := Packer.empty
    let packer := packer.pack_byte type_id
    let packer := packer.pack_bool false
    let packer := packer.pack_bytes m.chain_id
    let packer := packer.pack_u32 m.request_id
    let packer := packer.pack_bytes_with_header m.app_bytes
    .ok packer.take_bytes

/-- `serialize_with_header` as in the source, against the global registry. -/
def Message.serialize_with_header (m : Message) : Except MsgError (List Nat) :=
  serializeWith TYPES m

end app_response

namespace state_summary_frontier

/-- `message::state_summary_frontier::Message` from
`src/src/message/state_summary_frontier.rs`. -/
structure Message where
  chain_id : List Nat
  request_id : Nat
  summary : List Nat

/-- `serialize_with_header` of `state_summary_frontier::Message`,
parametrized by the registry it consults. -/
def serializeWith (registry : List (String × Nat)) (m : Message) :
    Except MsgError (List Nat) :=
  match registry.lookup "state_summary_frontier" with
  | none => .error .unknownType
  | some type_id =>
    let packer := Packer.empty
    let packer := packer.pack_byte type_id
    let packer := packer.pack_bool false
    let packer := packer.pack_bytes m.chain_id
    let packer := packer.pack_u32 m.request_id
    let packer := packer.pack_bytes_with_header m.summary
    .ok packer.take_bytes

/-- `serialize_with_header` as in the source, against the global registry. -/
def Message.serialize_with_header (m : Message) : Except MsgError (List Nat) :=
  serializeWith TYPES m

end state_summary_frontier

/-- `ids::Id::empty()`: the all-zero 32-byte identifier. -/
def Id.empty : List Nat := List.replicate 32 0

/-!
### Keccak-256

The `sha3` crate's `Keccak256`, called by `keccak256` in
`src/src/key/secp256k1/address.rs`.  Lanes are 64-bit words modelled
as `Nat` kept below `2^64`; the state is the flat list of 25 lanes,
index `x + 5*y`.
-/

/-- Left-rotation of a 64-bit lane. -/
def rotl64 (x n : Nat) : Nat :=
  (((x % 18446744073709551616) <<< n) ||| ((x % 18446744073709551616) >>> (64 - n)))
    % 18446744073709551616

/-- Rotation offsets of the rho step, at flat index `x + 5*y`. -/
def keccakRho : List Nat :=
  [0, 1, 62, 28, 27] ++ [36, 44, 6, 55, 20] ++ [3, 10, 43, 25, 39] ++
    [41, 45, 15, 21, 8] ++ [18, 2, 61, 56, 14]

/-- The 24 round constants of Keccak-f[1600]. -/
def keccakRC : List Nat :=
  [1, 32898, 9223372036854808714, 9223372039002292224,
   32907, 2147483649, 9223372039002292353, 9223372036854808585,
   138, 136, 2147516425, 2147483658,
   2147516555, 9223372036854775947, 9223372036854808713, 9223372036854808579,
   9223372036854808578, 9223372036854775936, 32778, 9223372039002259466,
   9223372039002292353, 9223372036854808704, 2147483649, 9223372039002292232]

def keccakTheta (A : List Nat) : List Nat :=
  let C := (List.range 5).map (fun x =>
    A.getD x 0 ^^^ A.getD (x + 5) 0 ^^^ A.getD (x + 10) 0 ^^^
      A.getD (x + 15) 0 ^^^ A.getD (x + 20) 0)
  let D := (List.range 5).map (fun x =>
    C.getD ((x + 4) % 5) 0 ^^^ rotl64 (C.getD ((x + 1) % 5) 0) 1)
  (List.range 25).map (fun i => A.getD i 0 ^^^ D.getD (i % 5) 0)

/-- Combined rho rotation and pi lane permutation: the lane at target
index `j` comes from source coordinates `x = (3*(j/5) + j%5) % 5`,
`y = j % 5`, rotated by its rho offset. -/
def keccakRhoPi (A : List Nat) : List Nat :=
  (List.range 25).map (fun j =>
    let src := ((3 * (j / 5) + j % 5) % 5) + 5 * (j % 5)
    rotl64 (A.getD src 0) (keccakRho.getD src 0))

def keccakChi (A : List Nat) : List Nat :=
  (List.range 25).map (fun i =>
    let x := i % 5
    let y5 := i - x
    A.getD i 0 ^^^
      ((A.getD ((x + 1) % 5 + y5) 0 ^^^ 18446744073709551615) &&&
        A.getD ((x + 2) % 5 + y5) 0))

def keccakRound (A : List Nat) (rc : Nat) : List Nat :=
  let B := keccakChi (keccakRhoPi (keccakTheta A))
  B.set 0 (B.getD 0 0 ^^^ rc)

def keccakF (A : List Nat) : List Nat := keccakRC.foldl keccakRound A

/-- Little-endian 8-byte encoding of a 64-bit lane. -/
def u64leBytes (n : Nat) : List Nat :=
  [n % 256, n / 256 % 256, n / 65536 % 256, n / 16777216 % 256,
   n / 4294967296 % 256, n / 1099511627776 % 256, n / 281474976710656 % 256,
   n / 72057594037927936 % 256]

/-- Little-endian value of a byte list (used on 8-byte groups). -/
def bytesToU64le : List Nat → Nat
  | [] => 0
  | b :: rest => b + 256 * bytesToU64le rest

/-- XOR one 136-byte block into the first 17 lanes, then permute. -/
def keccakAbsorbBlock (A : List Nat) (block : List Nat) : List Nat :=
  keccakF ((List.range 25).map (fun i =>
    if i < 17 then A.getD i 0 ^^^ bytesToU64le ((block.drop (8 * i)).take 8)
    else A.getD i 0))

/-- Keccak multi-rate padding with domain byte `0x01` (the original
Keccak as used by Ethereum, not the SHA-3 `0x06` variant). -/
def keccakPad (msg : List Nat) : List Nat :=
  let q := 136 - msg.length % 136
  if q = 1 then msg ++ [129]
  else msg ++ [1] ++ List.replicate (q - 2) 0 ++ [128]

/-- Absorb the given number of 136-byte blocks (the padded input has
exactly `length / 136` of them). -/
def keccakAbsorbBlocks : Nat → List Nat → List Nat → List Nat
  | 0, A, _ => A
  | n + 1, A, bytes =>
    keccakAbsorbBlocks n (keccakAbsorbBlock A (bytes.take 136)) (bytes.drop 136)

/-- `keccak256(data)` from `src/src/key/secp256k1/address.rs`: the
32-byte Keccak-256 digest. -/
def keccak256 (msg : List Nat) : List Nat :=
  let padded := keccakPad msg
  let A := keccakAbsorbBlocks (padded.length / 136) (List.replicate 25 0) padded
  List.flatten ((List.range 4).map (fun i => u64leBytes (A.getD i 0)))

/-!
### Characters, strings and `eth_checksum`

Text is modelled as `List Char`.  The source's `char` case mappings
and `str::as_bytes` are modelled on the ASCII range (`Char.toUpper`
and `Char.toLower` have exactly Rust's ASCII behaviour; code points
are byte values); every address this layer handles is ASCII.
-/

/-- Fuel-indexed stripping loop of `trim_start_matches`; the fuel is
an upper bound on the number of removals (the string length works). -/
def trimAux : Nat → List Char → List Char → List Char
  | 0, _, s => s
  | n + 1, pat, s =>
    if pat ≠ [] ∧ pat.isPrefixOf s then trimAux n pat (s.drop pat.length) else s

/-- Rust `str::trim_start_matches` with a non-empty string pattern:
removes every leading occurrence of the pattern. -/
def trimStartMatches (pat s : List Char) : List Char :=
  trimAux s.length pat s

/-- `HEX_ENCODE_PREFIX` of the key module (its definition is outside
`src/`); Modelled from the spec: the hex prefix is `"0x"`. -/
def hexEncodePfx : List Char := ['0', 'x']

/-- One lowercase hex digit, as produced by `hex::encode`. -/
def hexDigitChar (n : Nat) : Char :=
  if n < 10 then Char.ofNat (48 + n) else Char.ofNat (87 + n)

/-- `hex::encode`: the lowercase hex string of a byte list. -/
def hexEncode (bs : List Nat) : List Char :=
  bs.foldr (fun b acc => hexDigitChar (b / 16 % 16) :: hexDigitChar (b % 16) :: acc) []

/-- Rust `char::to_digit(16)`. -/
def toDigit16 (c : Char) : Option Nat :=
  if 48 ≤ c.toNat ∧ c.toNat ≤ 57 then some (c.toNat - 48)
  else if 97 ≤ c.toNat ∧ c.toNat ≤ 102 then some (c.toNat - 87)
  else if 65 ≤ c.toNat ∧ c.toNat ≤ 70 then some (c.toNat - 55)
  else none

/-- `checksum_eip55` from `src/src/key/secp256k1/address.rs`: walk the
address zipped with the digest hex string; where the digest
character's hex value is at least 8 (`to_digit(16) >= Some(8)`; a
non-digit gives `None`, which compares below `Some(8)`), push the
uppercased address character, else the character unchanged. -/
def checksum_eip55 (addr addr_hash : List Char) : List Char :=
  (addr.zip addr_hash).map (fun p =>
    match toDigit16 p.2 with
    | some d => if 8 ≤ d then p.1.toUpper else p.1
    | none => p.1)

/-- `eth_checksum` from `src/src/key/secp256k1/address.rs`: strip
every leading `"0x"`, lowercase, Keccak-256 the lowercase string, and
apply `checksum_eip55` against its hex encoding. -/
def eth_checksum (addr : List Char) : List Char :=
  let addr_lower_case := (trimStartMatches hexEncodePfx addr).map Char.toLower
  checksum_eip55 addr_lower_case
    (hexEncode (keccak256 (addr_lower_case.map Char.toNat)))

/-- Whether a character is a hex digit (`to_digit(16)` succeeds). -/
def isHexDigit16 (c : Char) : Bool := (toDigit16 c).isSome

/-- The digest nibble paired with character position `i`: 4 bits per
hex character, MSB-first within each byte. -/
def nibbleAt (digest : List Nat) (i : Nat) : Nat :=
  if i % 2 = 0 then digest.getD (i / 2) 0 / 16 else digest.getD (i / 2) 0 % 16

/-- The C5 claim's description of `eth_checksum`, written from the
spec's words: strip the hex prefix, lowercase, Keccak-256 the
lowercase string, uppercase the i-th character exactly when the i-th
digest nibble is at least 8, and pass every non-hex character through
unchanged. -/
def ethChecksumClaimed (addr : List Char) : List Char :=
  let form := (trimStartMatches hexEncodePfx addr).map Char.toLower
  let digest := keccak256 (form.map Char.toNat)
  (List.range form.length).map (fun i =>
    let c := form.getD i ' '
    if isHexDigit16 c ∧ 8 ≤ nibbleAt digest i then c.toUpper else c)

/-- The amended C5 description: as claimed, except that uppercasing
applies to every character whose digest nibble is at least 8 (hex or
not), and the pairing stops at the shorter of the address form and
the 64 digest nibbles. -/
def ethChecksumAmended (addr : List Char) : List Char :=
  let form := (trimStartMatches hexEncodePfx addr).map Char.toLower
  let digest := keccak256 (form.map Char.toNat)
  (List.range (min form.length 64)).map (fun i =>
    let c := form.getD i ' '
    if 8 ≤ nibbleAt digest i then c.toUpper else c)

/-!
### SHA-256 and RIPEMD-160

`ring::digest(&SHA256, _)` and `ripemd::Ripemd160::digest`, called by
`hash_sha256_ripemd160` in `src/src/key/secp256k1/address.rs`.
Words are 32-bit values modelled as `Nat` kept below `2^32`.
-/

/-- Right-rotation of a 32-bit word. -/
def rotr32 (x n : Nat) : Nat :=
  (((x % 4294967296) >>> n) ||| ((x % 4294967296) <<< (32 - n))) % 4294967296

/-- Left-rotation of a 32-bit word. -/
def rotl32 (x n : Nat) : Nat :=
  (((x % 4294967296) <<< n) ||| ((x % 4294967296) >>> (32 - n))) % 4294967296

/-- Big-endian 8-byte encoding of a bit-length (SHA-256 padding). -/
def u64beBytes (n : Nat) : List Nat :=
  [n / 72057594037927936 % 256, n / 281474976710656 % 256, n / 1099511627776 % 256,
   n / 4294967296 % 256, n / 16777216 % 256, n / 65536 % 256, n / 256 % 256, n % 256]

/-- Big-endian 32-bit words from a byte list (complete 4-byte groups). -/
def bytesToWords32be : List Nat → List Nat
  | b0 :: b1 :: b2 :: b3 :: rest =>
    (((b0 * 256 + b1) * 256 + b2) * 256 + b3) :: bytesToWords32be rest
  | _ => []

/-- Little-endian 32-bit words from a byte list (complete 4-byte groups). -/
def bytesToWords32le : List Nat → List Nat
  | b0 :: b1 :: b2 :: b3 :: rest =>
    (b0 + 256 * (b1 + 256 * (b2 + 256 * b3))) :: bytesToWords32le rest
  | _ => []

/-- Little-endian 4-byte encoding of a 32-bit word. -/
def w32leBytes (n : Nat) : List Nat :=
  [n % 256, n / 256 % 256, n / 65536 % 256, n / 16777216 % 256]

def sha256K : List Nat :=
  [1116352408, 1899447441, 3049323471, 3921009573, 961987163, 1508970993,
   2453635748, 2870763221, 3624381080, 310598401, 607225278, 1426881987,
   1925078388, 2162078206, 2614888103, 3248222580, 3835390401, 4022224774,
   264347078, 604807628, 770255983, 1249150122, 1555081692, 1996064986,
   2554220882, 2821834349, 2952996808, 3210313671, 3336571891, 3584528711,
   113926993, 338241895, 666307205, 773529912, 1294757372, 1396182291,
   1695183700, 1986661051, 2177026350, 2456956037, 2730485921, 2820302411,
   3259730800, 3345764771, 3516065817, 3600352804, 4094571909, 275423344,
   430227734, 506948616, 659060556, 883997877, 958139571, 1322822218,
   1537002063, 1747873779, 1955562222, 2024104815, 2227730452, 2361852424,
   2428436474, 2756734187, 3204031479, 3329325298]

def sha256H0 : List Nat :=
  [1779033703, 3144134277, 1013904242, 2773480762,
   1359893119, 2600822924, 528734635, 1541459225]

/-- Extend the 16 block words to the 64-entry message schedule. -/
def sha256Extend (w : List Nat) : List Nat :=
  (List.range 48).foldl (fun w _ =>
    let n := w.length
    let w15 := w.getD (n - 15) 0
    let w2 := w.getD (n - 2) 0
    let s0 := rotr32 w15 7 ^^^ rotr32 w15 18 ^^^ (w15 >>> 3)
    let s1 := rotr32 w2 17 ^^^ rotr32 w2 19 ^^^ (w2 >>> 10)
    w ++ [(w.getD (n - 16) 0 + s0 + w.getD (n - 7) 0 + s1) % 4294967296]) w

/-- One SHA-256 compression of a 64-byte block into the 8 registers. -/
def sha256Compress (regs : List Nat) (block : List Nat) : List Nat :=
  let ws := sha256Extend (bytesToWords32be block)
  let r := (ws.zip sha256K).foldl (fun r p =>
    match r with
    | [a, b, c, d, e, f, g, h] =>
      let S1 := rotr32 e 6 ^^^ rotr32 e 11 ^^^ rotr32 e 25
      let ch := (e &&& f) ^^^ ((e ^^^ 4294967295) &&& g)
      let temp1 := (h + S1 + ch + p.2 + p.1) % 4294967296
      let S0 := rotr32 a 2 ^^^ rotr32 a 13 ^^^ rotr32 a 22
      let maj := (a &&& b) ^^^ (a &&& c) ^^^ (b &&& c)
      let temp2 := (S0 + maj) % 4294967296
      [(temp1 + temp2) % 4294967296, a, b, c, (d + temp1) % 4294967296, e, f, g]
    | r => r) regs
  (regs.zip r).map (fun p => (p.1 + p.2) % 4294967296)

def sha256Blocks : Nat → List Nat → List Nat → List Nat
  | 0, regs, _ => regs
  | n + 1, regs, bytes =>
    sha256Blocks n (sha256Compress regs (bytes.take 64)) (bytes.drop 64)

/-- Merkle-Damgard padding: `0x80`, zeros, 8-byte big-endian bit length. -/
def sha256Pad (msg : List Nat) : List Nat :=
  msg ++ [128] ++ List.replicate ((64 - (msg.length + 9) % 64) % 64) 0 ++
    u64beBytes (8 * msg.length)

/-- SHA-256 digest (32 bytes) of a byte list. -/
def sha256 (msg : List Nat) : List Nat :=
  let padded := sha256Pad msg
  List.flatten ((sha256Blocks (padded.length / 64) sha256H0 padded).map u32be)

/-- RIPEMD-160 round function; the round index selects one of the five
boolean functions. -/
def rmdF (j x y z : Nat) : Nat :=
  if j < 16 then x ^^^ y ^^^ z
  else if j < 32 then (x &&& y) ||| ((x ^^^ 4294967295) &&& z)
  else if j < 48 then (x ||| (y ^^^ 4294967295)) ^^^ z
  else if j < 64 then (x &&& z) ||| (y &&& (z ^^^ 4294967295))
  else x ^^^ (y ||| (z ^^^ 4294967295))

def rmdK : List Nat := [0, 1518500249, 1859775393, 2400959708, 2840853838]

def rmdKp : List Nat := [1352829926, 1548603684, 1836072691, 2053994217, 0]

/-- Message word selection order, left line. -/
def rmdR : List Nat :=
  [0, 1, 2, 3, 4, 5, 6, 7, 8, 9, 10, 11, 12, 13, 14, 15,
   7, 4, 13, 1, 10, 6, 15, 3, 12, 0, 9, 5, 2, 14, 11, 8,
   3, 10, 14, 4, 9, 15, 8, 1, 2, 7, 0, 6, 13, 11, 5, 12,
   1, 9, 11, 10, 0, 8, 12, 4, 13, 3, 7, 15, 14, 5, 6, 2,
   4, 0, 5, 9, 7, 12, 2, 10, 14, 1, 3, 8, 11, 6, 15, 13]

/-- Message word selection order, right line. -/
def rmdRp : List Nat :=
  [5, 14, 7, 0, 9, 2, 11, 4, 13, 6, 15, 8, 1, 10, 3, 12,
   6, 11, 3, 7, 0, 13, 5, 10, 14, 15, 8, 12, 4, 9, 1, 2,
   15, 5, 1, 3, 7, 14, 6, 9, 11, 8, 12, 2, 10, 0, 4, 13,
   8, 6, 4, 1, 3, 11, 15, 0, 5, 12, 2, 13, 9, 7, 10, 14,
   12, 15, 10, 4, 1, 5, 8, 7, 6, 2, 13, 14, 0, 3, 9, 11]

/-- Rotation amounts, left line. -/
def rmdS : List Nat :=
  [11, 14, 15, 12, 5, 8, 7, 9, 11, 13, 14, 15, 6, 7, 9, 8,
   7, 6, 8, 13, 11, 9, 7, 15, 7, 12, 15, 9, 11, 7, 13, 12,
   11, 13, 6, 7, 14, 9, 13, 15, 14, 8, 13, 6, 5, 12, 7, 5,
   11, 12, 14, 15, 14, 15, 9, 8, 9, 14, 5, 6, 8, 6, 5, 12,
   9, 15, 5, 11, 6, 8, 13, 12, 5, 12, 13, 14, 11, 8, 5, 6]

/-- Rotation amounts, right line. -/
def rmdSp : List Nat :=
  [8, 9, 9, 11, 13, 15, 15, 5, 7, 7, 8, 11, 14, 14, 12, 6,
   9, 13, 15, 7, 12, 8, 9, 11, 7, 7, 12, 7, 6, 15, 13, 11,
   9, 7, 15, 11, 8, 6, 6, 14, 12, 13, 5, 14, 13, 13, 7, 5,
   15, 5, 8, 11, 14, 14, 6, 14, 6, 9, 12, 9, 12, 5, 15, 8,
   8, 5, 12, 9, 12, 5, 14, 6, 8, 13, 6, 5, 15, 13, 11, 11]

/-- The 80 steps of one RIPEMD-160 line (left or right). -/
def rmdSteps (X : List Nat) (left : Bool) (regs : List Nat) : List Nat :=
  (List.range 80).foldl (fun r j =>
    match r with
    | [a, b, c, d, e] =>
      let fj := if left then rmdF j b c d else rmdF (79 - j) b c d
      let kj := if left then rmdK.getD (j / 16) 0 else rmdKp.getD (j / 16) 0
      let ri := if left then rmdR.getD j 0 else rmdRp.getD j 0
      let si := if left then rmdS.getD j 0 else rmdSp.getD j 0
      let T := (rotl32 ((a + fj + X.getD ri 0 + kj) % 4294967296) si + e) % 4294967296
      [e, T, b, rotl32 c 10, d]
    | r => r) regs

/-- One RIPEMD-160 compression of a 64-byte block. -/
def rmdCompress (h : List Nat) (block : List Nat) : List Nat :=
  let X := bytesToWords32le block
  match h, rmdSteps X true h, rmdSteps X false h with
  | [h0, h1, h2, h3, h4], [a, b, c, d, e], [a2, b2, c2, d2, e2] =>
    [(h1 + c + d2) % 4294967296, (h2 + d + e2) % 4294967296,
     (h3 + e + a2) % 4294967296, (h4 + a + b2) % 4294967296,
     (h0 + b + c2) % 4294967296]
  | h, _, _ => h

def rmdBlocks : Nat → List Nat → List Nat → List Nat
  | 0, h, _ => h
  | n + 1, h, bytes => rmdBlocks n (rmdCompress h (bytes.take 64)) (bytes.drop 64)

def rmdH0 : List Nat := [1732584193, 4023233417, 2562383102, 271733878, 3285377520]

/-- RIPEMD-160 padding: `0x80`, zeros, 8-byte little-endian bit length. -/
def rmdPad (msg : List Nat) : List Nat :=
  msg ++ [128] ++ List.replicate ((64 - (msg.length + 9) % 64) % 64) 0 ++
    u64leBytes (8 * msg.length)

/-- RIPEMD-160 digest (20 bytes) of a byte list. -/
def ripemd160 (msg : List Nat) : List Nat :=
  let padded := rmdPad msg
  List.flatten ((rmdBlocks (padded.length / 64) rmdH0 padded).map w32leBytes)

/-- The data-validity failure of `hash_sha256_ripemd160`
(`ErrorKind::InvalidData` in the source). -/
inductive HashError where
  | invalidData
deriving DecidableEq, Repr

/-- `hash_sha256_ripemd160` parametrized by the inner RIPEMD-160
implementation (the source's defensive length check guards against a
broken one): SHA-256, then the inner hash, then fail with
`InvalidData` unless the result is exactly 20 bytes. -/
def hash_sha256_ripemd160_with (rmd : List Nat → List Nat)
    (pub_key_bytes : List Nat) : Except HashError (List Nat) :=
  let digest_sha256 := sha256 pub_key_bytes
  let sha256_ripemd160 := rmd digest_sha256
  if sha256_ripemd160.length ≠ 20 then .error .invalidData
  else .ok sha256_ripemd160

/-- `hash_sha256_ripemd160` from `src/src/key/secp256k1/address.rs`. -/
def hash_sha256_ripemd160 (pub_key_bytes : List Nat) : Except HashError (List Nat) :=
  hash_sha256_ripemd160_with ripemd160 pub_key_bytes

/-!
### bech32

The `bech32` crate (v0.8 semantics, BIP-173 plus the bech32m checksum
constant), called by `avax_address_to_short_bytes` in
`src/src/key/secp256k1/address.rs`.
-/

/-- One step of the bech32 checksum LFSR (`polymod_step`). -/
def polymodStep (chk v : Nat) : Nat :=
  let b := chk >>> 25
  let c0 := ((chk &&& 33554431) <<< 5) ^^^ v
  let c1 := if (b >>> 0) &&& 1 = 1 then c0 ^^^ 996825010 else c0
  let c2 := if (b >>> 1) &&& 1 = 1 then c1 ^^^ 642813549 else c1
  let c3 := if (b >>> 2) &&& 1 = 1 then c2 ^^^ 513874426 else c2
  let c4 := if (b >>> 3) &&& 1 = 1 then c3 ^^^ 1027748829 else c3
  let c5 := if (b >>> 4) &&& 1 = 1 then c4 ^^^ 705979059 else c4
  c5

def polymodAux (chk : Nat) (vs : List Nat) : Nat := vs.foldl polymodStep chk

def polymod (vs : List Nat) : Nat := polymodAux 1 vs

/-- `hrp_expand`: high 3 bits of each HRP character, a zero, then the
low 5 bits of each character. -/
def hrpExpand (hrp : List Char) : List Nat :=
  hrp.map (fun c => c.toNat >>> 5) ++ [0] ++ hrp.map (fun c => c.toNat &&& 31)

/-- The bech32 data-character set, indexed by 5-bit value. -/
def CHARSET : List Char :=
  ['q', 'p', 'z', 'r', 'y', '9', 'x', '8', 'g', 'f', '2', 't', 'v', 'd', 'w', '0',
   's', '3', 'j', 'n', '5', '4', 'k', 'h', 'c', 'e', '6', 'm', 'u', 'a', '7', 'l']

/-- Value of a bech32 data character, if any. -/
def charsetRev (c : Char) : Option Nat :=
  let i := CHARSET.indexOf c
  if i < 32 then some i else none

/-- The 6-character checksum for the Bech32 (not bech32m) variant. -/
def bech32CreateChecksum (hrp : List Char) (data : List Nat) : List Nat :=
  let pm := polymod (hrpExpand hrp ++ data ++ [0, 0, 0, 0, 0, 0]) ^^^ 1
  (List.range 6).map (fun i => (pm >>> (5 * (5 - i))) &&& 31)

/-- `bech32::encode` with the Bech32 variant: HRP, separator `1`,
then data and checksum mapped through the character set. -/
def bech32Encode (hrp : List Char) (data : List Nat) : List Char :=
  hrp ++ ['1'] ++ (data ++ bech32CreateChecksum hrp data).map (fun v => CHARSET.getD v '?')

def isUpperAlpha (c : Char) : Bool := 65 ≤ c.toNat && c.toNat ≤ 90

def isLowerAlpha (c : Char) : Bool := 97 ≤ c.toNat && c.toNat ≤ 122

/-- Index of the last `'1'` (the bech32 separator is the last one). -/
def findLastOne : List Char → Option Nat
  | [] => none
  | c :: rest =>
    match findLastOne rest with
    | some i => some (i + 1)
    | none => if c = '1' then some 0 else none

/-- Map the data part through `charsetRev`, failing on any invalid
character. -/
def mapCharsetRev : List Char → Option (List Nat)
  | [] => some []
  | c :: rest =>
    match charsetRev c with
    | none => none
    | some v =>
      match mapCharsetRev rest with
      | none => none
      | some vs => some (v :: vs)

/-- `bech32::decode` (success cases; the source collapses every crate
error into one I/O error): reject mixed case, lowercase, split at the
last `1`, validate the HRP range and the data characters, verify the
checksum (accepting the Bech32 and bech32m constants), and return the
HRP with the data values minus the 6 checksum values. -/
def bech32Decode (s : List Char) : Option (List Char × List Nat) :=
  if s.any isUpperAlpha && s.any isLowerAlpha then none
  else
    let t := s.map Char.toLower
    match findLastOne t with
    | none => none
    | some pos =>
      let hrp := t.take pos
      let rest := t.drop (pos + 1)
      if hrp.isEmpty || rest.length < 6 then none
      else if !hrp.all (fun c => 33 ≤ c.toNat && c.toNat ≤ 126) then none
      else
        match mapCharsetRev rest with
        | none => none
        | some values =>
          if polymod (hrpExpand hrp ++ values) = 1 ∨
              polymod (hrpExpand hrp ++ values) = 734539939 then
            some (hrp, values.take (values.length - 6))
          else none

/-- Emit `tobits`-wide groups from the accumulator while enough bits
remain (the inner `while` of `convert_bits`); the fuel starts at
`bits`, an upper bound on the iteration count. -/
def drainAux (acc tobits : Nat) : Nat → Nat → List Nat × Nat
  | 0, bits => ([], bits)
  | fuel + 1, bits =>
    if tobits ≤ bits ∧ 0 < tobits then
      let bits2 := bits - tobits
      let v := (acc >>> bits2) &&& ((1 <<< tobits) - 1)
      let r := drainAux acc tobits fuel bits2
      (v :: r.1, r.2)
    else ([], bits)

def drainBits (acc bits tobits : Nat) : List Nat × Nat :=
  drainAux acc tobits bits bits

/-- The accumulation loop of `convert_bits`: shift each input value
into the accumulator (rejecting values wider than `frombits`) and
drain full output groups. -/
def convertBitsAux (frombits tobits : Nat) : Nat → Nat → List Nat → Option (List Nat × Nat × Nat)
  | acc, bits, [] => some ([], acc, bits)
  | acc, bits, v :: rest =>
    if v >>> frombits ≠ 0 then none
    else
      let acc2 := (acc <<< frombits) ||| v
      let r := drainBits acc2 (bits + frombits) tobits
      match convertBitsAux frombits tobits acc2 r.2 rest with
      | none => none
      | some (out2, acc3, bits4) => some (r.1 ++ out2, acc3, bits4)

/-- `bech32::convert_bits`: regroup bit widths; with `pad` emit a
final padded group, without `pad` reject leftover data. -/
def convert_bits (data : List Nat) (frombits tobits : Nat) (pad : Bool) : Option (List Nat) :=
  match convertBitsAux frombits tobits 0 0 data with
  | none => none
  | some (out, acc, bits) =>
    let maxv := (1 <<< tobits) - 1
    if pad then
      if 0 < bits then some (out ++ [(acc <<< (tobits - bits)) &&& maxv]) else some out
    else if frombits ≤ bits ∨ ((acc <<< (tobits - bits)) &&& maxv) ≠ 0 then none
    else some out

/-- Modelled from the spec: the HRP for network id 1 is `"avax"`
(section 3; other network ids are not pinned by the spec and use the
fallback name). -/
def networkHrp (network_id : Nat) : List Char :=
  if network_id = 1 then ['a', 'v', 'a', 'x'] else ['c', 'u', 's', 't', 'o', 'm']

/-- Modelled from the spec: address construction (`to_avax_address`,
outside `src/`): bech32-encode the 5-bit regrouping of the 20-byte
short id under the network's HRP and prefix `"<alias>-"` (section 3:
bech32 short address). -/
def to_avax_address (network_id : Nat) (chain_alias : List Char) (short : List Nat) :
    Option (List Char) :=
  match convert_bits short 8 5 true with
  | none => none
  | some data5 => some (chain_alias ++ ['-'] ++ bech32Encode (networkHrp network_id) data5)

/-- Decode failure of `avax_address_to_short_bytes`; the source wraps
both stages in `ErrorKind::Other` with distinct messages. -/
inductive AddrError where
  | decodeFailure
  | convertFailure
deriving DecidableEq, Repr

/-- The decode pipeline of `avax_address_to_short_bytes` after
trimming: `bech32::decode`, then `convert_bits(5, 8, false)`. -/
def bech32DecodeToShort (s : List Char) : Except AddrError (List Char × List Nat) :=
  match bech32Decode s with
  | none => .error .decodeFailure
  | some (hrp, data) =>
    match convert_bits data 5 8 false with
    | none => .error .convertFailure
    | some convert => .ok (hrp, convert)

/-- Rust `str::trim` (whitespace from both ends). -/
def rustTrim (s : List Char) : List Char :=
  ((s.dropWhile Char.isWhitespace).reverse.dropWhile Char.isWhitespace).reverse

/-- `avax_address_to_short_bytes` from
`src/src/key/secp256k1/address.rs`: with an empty chain alias, trim
whitespace; otherwise strip every leading `"<alias>-"` (appending the
dash unless the alias already ends with one); then decode. -/
def avax_address_to_short_bytes (chain_alias addr : List Char) :
    Except AddrError (List Char × List Nat) :=
  let trimmed :=
    if chain_alias.isEmpty then rustTrim addr
    else
      let pfx := if chain_alias.getLast? = some '-' then chain_alias
        else chain_alias ++ ['-']
      trimStartMatches pfx addr
  bech32DecodeToShort trimmed

/-- A lowercase hex digit character: `0-9` or `a-f`. -/
def isLowerHexChar (c : Char) : Bool :=
  (48 ≤ c.toNat && c.toNat ≤ 57) || (97 ≤ c.toNat && c.toNat ≤ 102)

/-- Base-`2^w` value of a digit list, most significant first (the
abstract meaning of the `convert_bits` accumulator). -/
def VAL (w : Nat) (l : List Nat) : Nat := l.foldl (fun n v => n * 2 ^ w + v) 0

/-!
## Theorems
-/

theorem u32be_length (n : Nat) : (u32be n).length = 4 := rfl

theorem readBE32_u32be (n : Nat) (h : n < 4294967296) :
    readBE32 (u32be n) = n := by
  unfold readBE32 u32be
  simp only
  omega

/-- The outer header written by `take_bytes` reads back, as a
big-endian 32-bit value, as the length of everything after it,
provided that length fits in 32 bits. -/
theorem take_bytes_header (p : Packer) (h : p.buf.length < 4294967296) :
    readBE32 (p.take_bytes.take 4) = (p.take_bytes.drop 4).length := by
  unfold Packer.take_bytes
  have h4 : (u32be (p.buf.length % 4294967296)).length = 4 := rfl
  rw [List.take_left' h4, List.drop_left' h4,
    readBE32_u32be _ (Nat.mod_lt _ (by norm_num)), Nat.mod_eq_of_lt h]

/-- C1: for both supported message variants (AppResponse and
StateSummaryFrontier), for every 32-byte chain id, every request id
and every payload (with the total body small enough to fit the 32-bit
length header), `serialize_with_header` succeeds and the first 4 bytes
of its output, read as a big-endian u32, equal the byte length of
everything that follows them. -/
theorem serialize_with_header_length_header (chain_id : List Nat)
    (request_id : Nat) (payload : List Nat)
    (hc : chain_id.length = 32) (hp : 42 + payload.length < 4294967296) :
    (∃ out,
      (app_response.Message.mk chain_id request_id payload).serialize_with_header
          = .ok out ∧
        readBE32 (out.take 4) = (out.drop 4).length) ∧
    (∃ out,
      (state_summary_frontier.Message.mk chain_id request_id payload).serialize_with_header
          = .ok out ∧
        readBE32 (out.take 4) = (out.drop 4).length) := by
  constructor
  · refine ⟨_, rfl, take_bytes_header _ ?_⟩
    simp [Packer.empty, Packer.pack_byte, Packer.pack_bool, Packer.pack_bytes,
      Packer.pack_u32, Packer.pack_bytes_with_header, u32be, hc]
    omega
  · refine ⟨_, rfl, take_bytes_header _ ?_⟩
    simp [Packer.empty, Packer.pack_byte, Packer.pack_bool, Packer.pack_bytes,
      Packer.pack_u32, Packer.pack_bytes_with_header, u32be, hc]
    omega

/-- Witness for C1: the length-header property evaluated at the
test-vector input of the source (all-zero chain id, request id 7,
payload `[1,2,3,4]`). -/
theorem serialize_with_header_length_header_witness :
    (Id.empty.length = 32 ∧ 42 + [1, 2, 3, 4].length < 4294967296) ∧
    ((∃ out,
      (app_response.Message.mk Id.empty 7 [1, 2, 3, 4]).serialize_with_header
          = .ok out ∧
        readBE32 (out.take 4) = (out.drop 4).length) ∧
    (∃ out,
      (state_summary_frontier.Message.mk Id.empty 7 [1, 2, 3, 4]).serialize_with_header
          = .ok out ∧
        readBE32 (out.take 4) = (out.drop 4).length)) :=
  ⟨⟨by decide, by decide⟩,
    serialize_with_header_length_header Id.empty 7 [1, 2, 3, 4]
      (by decide) (by decide)⟩

/-- C2: the AppResponse variant with all-zero chain id, request id 7
and payload `[0x01,0x02,0x03,0x04]` serializes to the exact byte
string: total length `0x0000002e`, type code `0x15`, compressible
byte `0x00`, 32 zero bytes, request id `0x00000007`, payload length
`0x00000004`, then the payload bytes. -/
theorem app_response_test_vector :
    (app_response.Message.mk Id.empty 7 [1, 2, 3, 4]).serialize_with_header
      = .ok ([0, 0, 0, 46, 21, 0] ++ List.replicate 32 0 ++
          [0, 0, 0, 7, 0, 0, 0, 4, 1, 2, 3, 4]) := by
  rfl

theorem charToNat_ofNat (n : Nat) (h : n < 55296) : (Char.ofNat n).toNat = n := by
  unfold Char.ofNat
  rw [dif_pos (Or.inl h)]
  simp only [Char.ofNatAux, Char.toNat, UInt32.ofNat']
  simp [UInt32.toNat, UInt32.ofNat, Fin.ofNat]

theorem toUpper_toNat (c : Char) :
    c.toUpper.toNat = if 97 ≤ c.toNat ∧ c.toNat ≤ 122 then c.toNat - 32 else c.toNat := by
  simp only [Char.toUpper, ge_iff_le]
  by_cases h : 97 ≤ c.toNat ∧ c.toNat ≤ 122
  · rw [if_pos h, if_pos h]
    exact charToNat_ofNat _ (by omega)
  · rw [if_neg h, if_neg h]

theorem toLower_toNat (c : Char) :
    c.toLower.toNat = if 65 ≤ c.toNat ∧ c.toNat ≤ 90 then c.toNat + 32 else c.toNat := by
  simp only [Char.toLower, ge_iff_le]
  by_cases h : 65 ≤ c.toNat ∧ c.toNat ≤ 90
  · rw [if_pos h, if_pos h]
    exact charToNat_ofNat _ (by omega)
  · rw [if_neg h, if_neg h]

theorem char_eq_of_toNat_eq {a b : Char} (h : a.toNat = b.toNat) : a = b :=
  Char.ext (UInt32.toNat.inj h)

/-- Lowercasing undoes uppercasing on digits and lowercase hex letters. -/
theorem toLower_toUpper_of_lower_hex (c : Char)
    (h : (48 ≤ c.toNat ∧ c.toNat ≤ 57) ∨ (97 ≤ c.toNat ∧ c.toNat ≤ 102)) :
    c.toUpper.toLower = c := by
  apply char_eq_of_toNat_eq
  rcases h with h | h
  · have hup : c.toUpper.toNat = c.toNat := by
      rw [toUpper_toNat, if_neg (by omega)]
    rw [toLower_toNat, hup, if_neg (by omega)]
  · have hup : c.toUpper.toNat = c.toNat - 32 := by
      rw [toUpper_toNat, if_pos (by omega)]
    rw [toLower_toNat, hup, if_pos (by omega)]
    omega

theorem toDigit16_hexDigitChar : ∀ v : Fin 16, toDigit16 (hexDigitChar v.val) = some v.val := by
  decide

theorem hexEncode_length (bs : List Nat) : (hexEncode bs).length = 2 * bs.length := by
  induction bs with
  | nil => rfl
  | cons b rest ih =>
    simp only [hexEncode, List.foldr_cons] at ih ⊢
    simp [ih]
    omega

theorem hexEncode_getD (bs : List Nat) :
    ∀ i, i < 2 * bs.length →
      (hexEncode bs).getD i ' ' =
        hexDigitChar (if i % 2 = 0 then bs.getD (i / 2) 0 / 16 % 16
          else bs.getD (i / 2) 0 % 16) := by
  induction bs with
  | nil => intro i hi; simp at hi
  | cons b rest ih =>
    intro i hi
    match i with
    | 0 => rfl
    | 1 => rfl
    | i + 2 =>
      have h2 : (i + 2) / 2 = i / 2 + 1 := by omega
      have h3 : (i + 2) % 2 = i % 2 := by omega
      simp only [hexEncode, List.foldr_cons, List.getD_cons_succ, h2, h3]
      exact ih i (by simp at hi; omega)

theorem keccak256_length (msg : List Nat) : (keccak256 msg).length = 32 := by
  have hr : List.range 4 = [0, 1, 2, 3] := rfl
  simp [keccak256, hr, u64leBytes]

theorem keccak256_bytes_lt (msg : List Nat) : ∀ b ∈ keccak256 msg, b < 256 := by
  intro b hb
  have hr : List.range 4 = [0, 1, 2, 3] := rfl
  simp only [keccak256, hr, List.map_cons, List.map_nil, List.flatten,
    List.append_nil, List.mem_append, List.mem_cons, List.not_mem_nil,
    or_false, u64leBytes, List.mem_append] at hb
  rcases hb with hb | hb | hb | hb <;>
    rcases hb with rfl | rfl | rfl | rfl | rfl | rfl | rfl | rfl <;> omega

theorem trimAux_nil (pat : List Char) : ∀ n, trimAux n pat [] = [] := by
  intro n
  cases n with
  | zero => rfl
  | succ n =>
    simp only [trimAux]
    rcases pat with _ | ⟨c, t⟩
    · simp
    · simp [List.isPrefixOf]

theorem trimAux_congr (pat : List Char) :
    ∀ n m s, s.length ≤ n → s.length ≤ m → trimAux n pat s = trimAux m pat s := by
  intro n
  induction n with
  | zero =>
    intro m s hn _
    have : s = [] := List.length_eq_zero.mp (by omega)
    subst this
    rw [trimAux_nil, trimAux_nil]
  | succ n ih =>
    intro m s hn hm
    cases m with
    | zero =>
      have : s = [] := List.length_eq_zero.mp (by omega)
      subst this
      rw [trimAux_nil, trimAux_nil]
    | succ m =>
      simp only [trimAux]
      by_cases h : pat ≠ [] ∧ pat.isPrefixOf s
      · rw [if_pos h, if_pos h]
        have hple : pat.length ≤ s.length :=
          (List.isPrefixOf_iff_prefix.mp h.2).length_le
        have hpos : 0 < pat.length := List.length_pos.mpr h.1
        exact ih m (s.drop pat.length) (by simp; omega) (by simp; omega)
      · rw [if_neg h, if_neg h]

/-- The defining unfolding of `trim_start_matches`: strip one leading
occurrence of the pattern and recurse, else return the string. -/
theorem trimStartMatches_eq (pat s : List Char) :
    trimStartMatches pat s =
      if pat ≠ [] ∧ pat.isPrefixOf s then trimStartMatches pat (s.drop pat.length)
      else s := by
  by_cases h : pat ≠ [] ∧ pat.isPrefixOf s
  · rw [if_pos h]
    have hple : pat.length ≤ s.length :=
      (List.isPrefixOf_iff_prefix.mp h.2).length_le
    have hpos : 0 < pat.length := List.length_pos.mpr h.1
    unfold trimStartMatches
    have hs : s.length = (s.length - 1) + 1 := by omega
    rw [hs]
    simp only [trimAux, if_pos h]
    exact trimAux_congr pat _ _ _ (by simp; omega) (by simp)
  · rw [if_neg h]
    unfold trimStartMatches
    cases s with
    | nil => exact trimAux_nil pat 0
    | cons c t => simp only [trimAux, if_neg h]

/-- When the pattern is not a prefix, `trim_start_matches` is the
identity. -/
theorem trimStartMatches_of_not_prefixOf (pat s : List Char)
    (h : pat.isPrefixOf s = false) : trimStartMatches pat s = s := by
  rw [trimStartMatches_eq, if_neg]
  simp [h]

/-- Every digest nibble is below 16 and, for bytes below 256, the
MSB-first nibble extraction agrees with the hex-string digit. -/
theorem nibbleAt_lt (digest : List Nat) (i : Nat)
    (hb : digest.getD (i / 2) 0 < 256) : nibbleAt digest i < 16 := by
  unfold nibbleAt
  split <;> omega

theorem eth_checksum_eq_amended (addr : List Char) :
    eth_checksum addr = ethChecksumAmended addr := by
  simp only [eth_checksum, ethChecksumAmended, checksum_eip55]
  set form := (trimStartMatches hexEncodePfx addr).map Char.toLower with hform
  set digest := keccak256 (form.map Char.toNat) with hdigest
  have hdlen : digest.length = 32 := keccak256_length _
  have hhlen : (hexEncode digest).length = 64 := by
    rw [hexEncode_length, hdlen]
  apply List.ext_getElem
  · simp [hhlen]
  · intro i h1 h2
    have hif : i < form.length := by simp [hhlen] at h1; omega
    have hi64 : i < 64 := by simp [hhlen] at h1; omega
    have hb : digest.getD (i / 2) 0 < 256 := by
      have hi2 : i / 2 < digest.length := by omega
      rw [List.getD_eq_getElem _ _ hi2]
      exact keccak256_bytes_lt _ _ (List.getElem_mem hi2)
    have hiH : i < (hexEncode digest).length := by omega
    have hH : (hexEncode digest)[i] = hexDigitChar (nibbleAt digest i) := by
      rw [← List.getD_eq_getElem _ ' ' (by omega), hexEncode_getD digest i (by omega)]
      congr 1
      unfold nibbleAt
      split
      · have : digest.getD (i / 2) 0 / 16 < 16 := by omega
        rw [Nat.mod_eq_of_lt this]
      · rfl
    simp only [List.getElem_map, List.getElem_zip, List.getElem_range]
    rw [hH, toDigit16_hexDigitChar ⟨nibbleAt digest i, nibbleAt_lt digest i hb⟩]
    simp only [List.getD_eq_getElem form ' ' hif]

theorem toLower_fixed_of_lowerHex (c : Char) (h : isLowerHexChar c) :
    c.toLower = c := by
  simp only [isLowerHexChar, Bool.or_eq_true, Bool.and_eq_true, decide_eq_true_eq] at h
  apply char_eq_of_toNat_eq
  rw [toLower_toNat, if_neg (by omega)]

theorem toLower_toUpper_fixed_of_lowerHex (c : Char) (h : isLowerHexChar c) :
    c.toUpper.toLower = c := by
  simp only [isLowerHexChar, Bool.or_eq_true, Bool.and_eq_true, decide_eq_true_eq] at h
  exact toLower_toUpper_of_lower_hex c h

/-- Lowercasing the mixed-case checksum output recovers the lowercase
input (up to the truncation at the digest-string length). -/
theorem map_toLower_checksum_eip55 (s k : List Char)
    (hs : ∀ c ∈ s, isLowerHexChar c) :
    (checksum_eip55 s k).map Char.toLower = s.take k.length := by
  apply List.ext_getElem
  · simp [checksum_eip55]
    omega
  · intro i h1 h2
    have his : i < s.length := by simp [checksum_eip55] at h1; omega
    have hik : i < k.length := by simp [checksum_eip55] at h1; omega
    have hmem : s[i] ∈ s := List.getElem_mem his
    simp only [List.getElem_map, checksum_eip55, List.getElem_zip, List.getElem_take]
    rcases htd : toDigit16 k[i] with _ | d
    · simp only [htd]
      exact toLower_fixed_of_lowerHex _ (hs _ hmem)
    · simp only [htd]
      split
      · exact toLower_toUpper_fixed_of_lowerHex _ (hs _ hmem)
      · exact toLower_fixed_of_lowerHex _ (hs _ hmem)

/-- `"0x"` is never a prefix of a string of lowercase hex digits. -/
theorem not_prefixOf_of_lowerHex (s : List Char)
    (hs : ∀ c ∈ s, isLowerHexChar c) :
    hexEncodePfx.isPrefixOf s = false := by
  rcases s with _ | ⟨c0, _ | ⟨c1, rest⟩⟩
  · rfl
  · simp [hexEncodePfx, List.isPrefixOf]
  · have h1 : isLowerHexChar c1 := hs c1 (by simp)
    simp only [isLowerHexChar, Bool.or_eq_true, Bool.and_eq_true,
      decide_eq_true_eq] at h1
    simp only [hexEncodePfx, List.isPrefixOf, Bool.and_eq_false_iff,
      beq_eq_false_iff_ne, ne_eq]
    right
    left
    intro hx
    have : c1.toNat = 120 := by rw [← hx]; rfl
    omega

theorem map_toLower_fixed_of_lowerHex (s : List Char)
    (hs : ∀ c ∈ s, isLowerHexChar c) : s.map Char.toLower = s := by
  conv_rhs => rw [← List.map_id s]
  exact List.map_congr_left (fun c hc => toLower_fixed_of_lowerHex c (hs c hc))

/-- On a plain lowercase-hex string, `eth_checksum` strips nothing and
lowercasing changes nothing. -/
theorem eth_checksum_of_plain (s : List Char)
    (hs : ∀ c ∈ s, isLowerHexChar c) :
    eth_checksum s = checksum_eip55 s (hexEncode (keccak256 (s.map Char.toNat))) := by
  simp only [eth_checksum,
    trimStartMatches_of_not_prefixOf _ _ (not_prefixOf_of_lowerHex s hs),
    map_toLower_fixed_of_lowerHex s hs]

/-- C6 (amended): `eth_checksum` is idempotent under
case-normalization for every address whose prefix-stripped lowercase
form is at most 64 characters of hex digits. -/
theorem eth_checksum_idempotent (addr : List Char)
    (h64 : ((trimStartMatches hexEncodePfx addr).map Char.toLower).length ≤ 64)
    (hhex : ∀ c ∈ (trimStartMatches hexEncodePfx addr).map Char.toLower,
      isLowerHexChar c) :
    eth_checksum ((eth_checksum addr).map Char.toLower) = eth_checksum addr := by
  have hO : eth_checksum addr =
      checksum_eip55 ((trimStartMatches hexEncodePfx addr).map Char.toLower)
        (hexEncode (keccak256
          (((trimStartMatches hexEncodePfx addr).map Char.toLower).map Char.toNat))) := rfl
  have hH64 : (hexEncode (keccak256
      (((trimStartMatches hexEncodePfx addr).map Char.toLower).map Char.toNat))).length
        = 64 := by
    rw [hexEncode_length, keccak256_length]
  rw [hO, map_toLower_checksum_eip55 _ _ hhex, hH64,
    List.take_of_length_le h64]
  exact eth_checksum_of_plain _ hhex

set_option maxRecDepth 100000 in
/-- C6 counterexample: for the address `"0X00"` (whose lowercase form
`"0x00"` begins with a strippable `"0x"`), applying `eth_checksum`,
lowercasing, and applying it again gives `"00"`, not the first
application's `"0x00"`. -/
theorem eth_checksum_idempotent_counterexample :
    eth_checksum ['0', 'X', '0', '0'] = ['0', 'x', '0', '0'] ∧
      eth_checksum ((eth_checksum ['0', 'X', '0', '0']).map Char.toLower) =
        ['0', '0'] := by
  constructor
  · decide
  · decide

/-- Witness for C6 (amended): the idempotence property applied to the
concrete address `"0xab"`. -/
theorem eth_checksum_idempotent_witness :
    ((((trimStartMatches hexEncodePfx ['0', 'x', 'a', 'b']).map Char.toLower).length ≤ 64 ∧
      ∀ c ∈ (trimStartMatches hexEncodePfx ['0', 'x', 'a', 'b']).map Char.toLower,
        isLowerHexChar c) ∧
    eth_checksum ((eth_checksum ['0', 'x', 'a', 'b']).map Char.toLower) =
      eth_checksum ['0', 'x', 'a', 'b']) :=
  ⟨⟨by decide, by decide⟩,
    eth_checksum_idempotent ['0', 'x', 'a', 'b'] (by decide) (by decide)⟩

set_option maxRecDepth 100000 in
/-- C5 counterexample: on the input `"zz"` the code uppercases the
non-hex character `z` (its digest nibble is at least 8), while the
claimed description leaves every non-hex character unchanged. -/
theorem eth_checksum_claimed_counterexample :
    eth_checksum ['z', 'z'] = ['Z', 'z'] ∧
      ethChecksumClaimed ['z', 'z'] = ['z', 'z'] := by
  constructor
  · decide
  · decide

/-- C5 (amended): `eth_checksum` strips every leading `"0x"`,
lowercases, hashes the lowercase form with Keccak-256, and uppercases
the i-th character exactly when the i-th digest nibble (MSB-first
within each byte) is at least 8 — uppercasing applies to any
character, and the pairing stops at the shorter of the form and the
64 digest nibbles. -/
theorem eth_checksum_spec (addr : List Char) :
    eth_checksum addr = ethChecksumAmended addr :=
  eth_checksum_eq_amended addr

/-- C9 (amended): the output length of `eth_checksum` is the length
of the prefix-stripped (lowercased) form capped at 64, which can be
shorter than the input string when a prefix was stripped. -/
theorem eth_checksum_output_length (addr : List Char) :
    (eth_checksum addr).length =
      min (trimStartMatches hexEncodePfx addr).length 64 := by
  have h : (hexEncode (keccak256
      ((trimStartMatches hexEncodePfx addr).map (Char.toNat ∘ Char.toLower)))).length
        = 64 := by
    rw [hexEncode_length, keccak256_length]
  simp [eth_checksum, checksum_eip55, h]

set_option maxRecDepth 100000 in
/-- C9 counterexample: the input `"0xabc"` has 5 characters but the
output `"aBc"` has 3, so for inputs of at most 64 characters the
output length is not in general the input length. -/
theorem eth_checksum_length_counterexample :
    (eth_checksum ['0', 'x', 'a', 'b', 'c']).length = 3 ∧
      (['0', 'x', 'a', 'b', 'c'] : List Char).length = 5 := by
  constructor
  · decide
  · decide

theorem exists_five (l : List Nat) (h : l.length = 5) :
    ∃ a b c d e, l = [a, b, c, d, e] := by
  rcases l with _ | ⟨a, l⟩
  · simp at h
  rcases l with _ | ⟨b, l⟩
  · simp at h
  rcases l with _ | ⟨c, l⟩
  · simp at h
  rcases l with _ | ⟨d, l⟩
  · simp at h
  rcases l with _ | ⟨e, l⟩
  · simp at h
  rcases l with _ | ⟨f, l⟩
  · exact ⟨a, b, c, d, e, rfl⟩
  · simp at h

theorem rmdSteps_length (X : List Nat) (left : Bool) (regs : List Nat)
    (h : regs.length = 5) : (rmdSteps X left regs).length = 5 := by
  unfold rmdSteps
  generalize List.range 80 = l
  induction l generalizing regs with
  | nil => simpa using h
  | cons j t ih =>
    obtain ⟨a, b, c, d, e, rfl⟩ := exists_five regs h
    simp only [List.foldl_cons]
    exact ih _ rfl

theorem rmdCompress_length (h block : List Nat) (hl : h.length = 5) :
    (rmdCompress h block).length = 5 := by
  obtain ⟨h0, h1, h2, h3, h4, rfl⟩ := exists_five h hl
  obtain ⟨a, b, c, d, e, hL⟩ := exists_five _
    (rmdSteps_length (bytesToWords32le block) true [h0, h1, h2, h3, h4] rfl)
  obtain ⟨a2, b2, c2, d2, e2, hR⟩ := exists_five _
    (rmdSteps_length (bytesToWords32le block) false [h0, h1, h2, h3, h4] rfl)
  unfold rmdCompress
  simp only []
  rw [hL, hR]
  rfl

theorem rmdBlocks_length (n : Nat) :
    ∀ h bytes, h.length = 5 → (rmdBlocks n h bytes).length = 5 := by
  induction n with
  | zero => intro h bytes hl; simpa using hl
  | succ n ih =>
    intro h bytes hl
    exact ih _ _ (rmdCompress_length h (bytes.take 64) hl)

/-- The RIPEMD-160 implementation always yields exactly 20 bytes. -/
theorem ripemd160_length (msg : List Nat) : (ripemd160 msg).length = 20 := by
  obtain ⟨a, b, c, d, e, h5⟩ :=
    exists_five _ (rmdBlocks_length ((rmdPad msg).length / 64) rmdH0 (rmdPad msg) rfl)
  simp only [ripemd160, h5]
  simp [w32leBytes]

/-- C7: for every input, `hash_sha256_ripemd160` returns `Ok` with
the 20-byte RIPEMD-160 of the SHA-256 of the input (never reaching
the error branch), and for any inner hash returning a length other
than 20 bytes it returns the typed `InvalidData` error — never a
panic. -/
theorem hash_sha256_ripemd160_spec :
    (∀ input : List Nat,
      hash_sha256_ripemd160 input = .ok (ripemd160 (sha256 input)) ∧
        (ripemd160 (sha256 input)).length = 20) ∧
    (∀ (rmd : List Nat → List Nat) (input : List Nat),
      (rmd (sha256 input)).length ≠ 20 →
        hash_sha256_ripemd160_with rmd input = .error .invalidData) := by
  constructor
  · intro input
    refine ⟨?_, ripemd160_length _⟩
    unfold hash_sha256_ripemd160 hash_sha256_ripemd160_with
    rw [if_neg]
    simp [ripemd160_length]
  · intro rmd input h
    unfold hash_sha256_ripemd160_with
    rw [if_pos h]

/-- Witness for C7: the success branch at the empty input, and the
failure branch with a mock inner hash returning the empty list. -/
theorem hash_sha256_ripemd160_spec_witness :
    (hash_sha256_ripemd160 [] = .ok (ripemd160 (sha256 [])) ∧
      (ripemd160 (sha256 [])).length = 20) ∧
    (((fun _ : List Nat => ([] : List Nat)) (sha256 [])).length ≠ 20 ∧
      hash_sha256_ripemd160_with (fun _ => []) [] = .error .invalidData) :=
  ⟨hash_sha256_ripemd160_spec.1 [],
    ⟨by decide, hash_sha256_ripemd160_spec.2 (fun _ => []) [] (by decide)⟩⟩

theorem VAL_init (w init : Nat) (l : List Nat) :
    l.foldl (fun n v => n * 2 ^ w + v) init = init * 2 ^ (w * l.length) + VAL w l := by
  induction l generalizing init with
  | nil => simp [VAL]
  | cons v t ih =>
    simp only [List.foldl_cons, List.length_cons]
    rw [ih (init * 2 ^ w + v)]
    have hv : VAL w (v :: t) = v * 2 ^ (w * t.length) + VAL w t := by
      unfold VAL
      simp only [List.foldl_cons, Nat.zero_mul, Nat.zero_add]
      exact ih v
    rw [hv]
    ring

theorem VAL_cons (w v : Nat) (l : List Nat) :
    VAL w (v :: l) = v * 2 ^ (w * l.length) + VAL w l := by
  unfold VAL
  simp only [List.foldl_cons, Nat.zero_mul, Nat.zero_add]
  exact VAL_init w v l

theorem VAL_append (w : Nat) (l1 l2 : List Nat) :
    VAL w (l1 ++ l2) = VAL w l1 * 2 ^ (w * l2.length) + VAL w l2 := by
  unfold VAL
  rw [List.foldl_append]
  exact VAL_init w _ l2

theorem VAL_lt (w : Nat) (l : List Nat) (h : ∀ v ∈ l, v < 2 ^ w) :
    VAL w l < 2 ^ (w * l.length) := by
  induction l with
  | nil => simp [VAL]
  | cons v t ih =>
    rw [VAL_cons]
    have hv : v < 2 ^ w := h v (by simp)
    have ht : VAL w t < 2 ^ (w * t.length) := ih (fun x hx => h x (by simp [hx]))
    calc v * 2 ^ (w * t.length) + VAL w t
        < v * 2 ^ (w * t.length) + 2 ^ (w * t.length) := by omega
      _ = (v + 1) * 2 ^ (w * t.length) := by ring
      _ ≤ 2 ^ w * 2 ^ (w * t.length) := Nat.mul_le_mul_right _ (by omega)
      _ = 2 ^ (w * (t.length + 1)) := by rw [← pow_add]; ring_nf

theorem VAL_inj (w : Nat) : ∀ l1 l2 : List Nat, l1.length = l2.length →
    (∀ v ∈ l1, v < 2 ^ w) → (∀ v ∈ l2, v < 2 ^ w) → VAL w l1 = VAL w l2 → l1 = l2 := by
  intro l1
  induction l1 with
  | nil =>
    intro l2 hlen _ _ _
    exact (List.length_eq_zero.mp hlen.symm).symm ▸ rfl
  | cons a t1 ih =>
    intro l2 hlen h1 h2 hval
    rcases l2 with _ | ⟨b, t2⟩
    · simp at hlen
    have hlt : t1.length = t2.length := by simpa using hlen
    rw [VAL_cons, VAL_cons, hlt] at hval
    have hv1 : VAL w t1 < 2 ^ (w * t2.length) :=
      hlt ▸ VAL_lt w t1 (fun x hx => h1 x (by simp [hx]))
    have hv2 : VAL w t2 < 2 ^ (w * t2.length) :=
      VAL_lt w t2 (fun x hx => h2 x (by simp [hx]))
    have hK : 0 < 2 ^ (w * t2.length) := Nat.pos_pow_of_pos _ (by omega)
    have hab : a = b := by
      have ha : (a * 2 ^ (w * t2.length) + VAL w t1) / 2 ^ (w * t2.length) = a := by
        rw [Nat.mul_comm a, Nat.mul_add_div hK, Nat.div_eq_of_lt hv1, Nat.add_zero]
      have hb : (b * 2 ^ (w * t2.length) + VAL w t2) / 2 ^ (w * t2.length) = b := by
        rw [Nat.mul_comm b, Nat.mul_add_div hK, Nat.div_eq_of_lt hv2, Nat.add_zero]
      rw [← ha, ← hb, hval]
    subst hab
    have htv : VAL w t1 = VAL w t2 := Nat.add_left_cancel hval
    rw [ih t2 hlt (fun x hx => h1 x (by simp [hx])) (fun x hx => h2 x (by simp [hx])) htv]

/-- The key modular identity behind draining one output group. -/
theorem mod_split_group (acc b2 tb : Nat) :
    (acc / 2 ^ b2 % 2 ^ tb) * 2 ^ b2 + acc % 2 ^ b2 = acc % 2 ^ (b2 + tb) := by
  rw [pow_add, Nat.mod_mul]
  ring

/-- Correctness of the draining loop: the emitted groups re-encode the
low `bits` bits of the accumulator, leaving fewer than `tobits` bits. -/
theorem drainAux_spec (acc tobits : Nat) (htb : 0 < tobits) :
    ∀ fuel bits, bits ≤ fuel →
      (drainAux acc tobits fuel bits).2 < tobits ∧
      tobits * (drainAux acc tobits fuel bits).1.length
          + (drainAux acc tobits fuel bits).2 = bits ∧
      (∀ v ∈ (drainAux acc tobits fuel bits).1, v < 2 ^ tobits) ∧
      VAL tobits (drainAux acc tobits fuel bits).1 * 2 ^ (drainAux acc tobits fuel bits).2
        + acc % 2 ^ (drainAux acc tobits fuel bits).2 = acc % 2 ^ bits := by
  intro fuel
  induction fuel with
  | zero =>
    intro bits hb
    have : bits = 0 := by omega
    subst this
    exact ⟨htb, by simp [drainAux], by simp [drainAux], by simp [drainAux, VAL]⟩
  | succ fuel ih =>
    intro bits hb
    by_cases hc : tobits ≤ bits
    · have hstep : drainAux acc tobits (fuel + 1) bits =
          (((acc >>> (bits - tobits)) &&& ((1 <<< tobits) - 1))
              :: (drainAux acc tobits fuel (bits - tobits)).1,
            (drainAux acc tobits fuel (bits - tobits)).2) := by
        simp [drainAux, hc, htb]
      obtain ⟨ih1, ih2, ih3, ih4⟩ := ih (bits - tobits) (by omega)
      have hv : (acc >>> (bits - tobits)) &&& ((1 <<< tobits) - 1) =
          acc / 2 ^ (bits - tobits) % 2 ^ tobits := by
        rw [Nat.one_shiftLeft, Nat.shiftRight_eq_div_pow,
          Nat.and_pow_two_sub_one_eq_mod]
      refine ⟨by rw [hstep]; exact ih1, ?_, ?_, ?_⟩
      · rw [hstep]
        simp only [List.length_cons, Nat.mul_succ]
        omega
      · rw [hstep]
        intro x hx
        rcases List.mem_cons.mp hx with rfl | hx
        · rw [hv]
          exact Nat.mod_lt _ (Nat.pos_pow_of_pos _ (by omega))
        · exact ih3 x hx
      · rw [hstep]
        rw [VAL_cons, hv]
        have hexp : tobits * (drainAux acc tobits fuel (bits - tobits)).1.length
            + (drainAux acc tobits fuel (bits - tobits)).2 = bits - tobits := ih2
        calc (acc / 2 ^ (bits - tobits) % 2 ^ tobits
                * 2 ^ (tobits * (drainAux acc tobits fuel (bits - tobits)).1.length)
              + VAL tobits (drainAux acc tobits fuel (bits - tobits)).1)
              * 2 ^ (drainAux acc tobits fuel (bits - tobits)).2
            + acc % 2 ^ (drainAux acc tobits fuel (bits - tobits)).2
            = acc / 2 ^ (bits - tobits) % 2 ^ tobits
                * 2 ^ (tobits * (drainAux acc tobits fuel (bits - tobits)).1.length
                  + (drainAux acc tobits fuel (bits - tobits)).2)
              + (VAL tobits (drainAux acc tobits fuel (bits - tobits)).1
                  * 2 ^ (drainAux acc tobits fuel (bits - tobits)).2
                + acc % 2 ^ (drainAux acc tobits fuel (bits - tobits)).2) := by
              rw [pow_add]
              ring
          _ = acc / 2 ^ (bits - tobits) % 2 ^ tobits * 2 ^ (bits - tobits)
              + acc % 2 ^ (bits - tobits) := by rw [hexp, ih4]
          _ = acc % 2 ^ (bits - tobits + tobits) := mod_split_group acc _ tobits
          _ = acc % 2 ^ bits := by
              have hbt : bits - tobits + tobits = bits := by omega
              rw [hbt]
    · have hstep : drainAux acc tobits (fuel + 1) bits = ([], bits) := by
        simp only [drainAux, if_neg (by omega : ¬(tobits ≤ bits ∧ 0 < tobits))]
      rw [hstep]
      exact ⟨by omega, by simp, by simp, by simp [VAL]⟩

/-- Correctness of the `convert_bits` accumulation loop: the emitted
groups, the leftover accumulator bits and the input have the same
base-2 value, with matching bit counts. -/
theorem convertBitsAux_spec (fb tb : Nat) (htb : 0 < tb) :
    ∀ (l : List Nat) (acc bits : Nat), (∀ v ∈ l, v < 2 ^ fb) → bits < tb →
      ∃ out acc2 bits2,
        convertBitsAux fb tb acc bits l = some (out, acc2, bits2) ∧
        bits2 < tb ∧ (∀ v ∈ out, v < 2 ^ tb) ∧
        tb * out.length + bits2 = bits + fb * l.length ∧
        VAL tb out * 2 ^ bits2 + acc2 % 2 ^ bits2 =
          (acc % 2 ^ bits) * 2 ^ (fb * l.length) + VAL fb l := by
  intro l
  induction l with
  | nil =>
    intro acc bits _ hbt
    exact ⟨[], acc, bits, rfl, hbt, by simp, by simp, by simp [VAL]⟩
  | cons v rest ih =>
    intro acc bits hlt hbt
    have hv : v < 2 ^ fb := hlt v (by simp)
    have hsh : v >>> fb = 0 := by
      rw [Nat.shiftRight_eq_div_pow]
      exact Nat.div_eq_of_lt hv
    have hacc2 : (acc <<< fb) ||| v = 2 ^ fb * acc + v := by
      rw [Nat.shiftLeft_eq, Nat.mul_comm acc]
      exact (Nat.mul_add_lt_is_or hv acc).symm
    have hDB : drainBits ((acc <<< fb) ||| v) (bits + fb) tb =
        drainAux ((acc <<< fb) ||| v) tb (bits + fb) (bits + fb) := rfl
    obtain ⟨hd1, hd2, hd3, hd4⟩ :=
      drainAux_spec ((acc <<< fb) ||| v) tb htb (bits + fb) (bits + fb) le_rfl
    rw [← hDB] at hd1 hd2 hd3 hd4
    obtain ⟨out2, acc3, bits4, hEq, hb4, hout2, hlen2, hval2⟩ :=
      ih ((acc <<< fb) ||| v) (drainBits ((acc <<< fb) ||| v) (bits + fb) tb).2
        (fun x hx => hlt x (by simp [hx])) hd1
    refine ⟨(drainBits ((acc <<< fb) ||| v) (bits + fb) tb).1 ++ out2, acc3, bits4,
      ?_, hb4, ?_, ?_, ?_⟩
    · show convertBitsAux fb tb acc bits (v :: rest) = _
      simp only [convertBitsAux]
      rw [if_neg (by simp [hsh])]
      rw [hEq]
    · intro x hx
      rcases List.mem_append.mp hx with hx | hx
      · exact hd3 x hx
      · exact hout2 x hx
    · simp only [List.length_append, List.length_cons, Nat.mul_add, Nat.mul_succ]
      omega
    · have hmod : ((acc <<< fb) ||| v) % 2 ^ (bits + fb) =
          (acc % 2 ^ bits) * 2 ^ fb + v := by
        rw [hacc2, pow_add, Nat.mul_comm (2 ^ bits), Nat.mod_mul]
        have h1 : (2 ^ fb * acc + v) % 2 ^ fb = v := by
          rw [Nat.mul_add_mod]
          exact Nat.mod_eq_of_lt hv
        have h2 : (2 ^ fb * acc + v) / 2 ^ fb = acc := by
          rw [Nat.mul_add_div (Nat.pos_pow_of_pos _ (by omega)),
            Nat.div_eq_of_lt hv, Nat.add_zero]
        rw [h1, h2]
        ring
      rw [VAL_append, VAL_cons]
      calc (VAL tb (drainBits ((acc <<< fb) ||| v) (bits + fb) tb).1 * 2 ^ (tb * out2.length)
              + VAL tb out2) * 2 ^ bits4 + acc3 % 2 ^ bits4
          = VAL tb (drainBits ((acc <<< fb) ||| v) (bits + fb) tb).1
              * 2 ^ (tb * out2.length + bits4)
            + (VAL tb out2 * 2 ^ bits4 + acc3 % 2 ^ bits4) := by
            rw [pow_add]; ring
        _ = VAL tb (drainBits ((acc <<< fb) ||| v) (bits + fb) tb).1
              * 2 ^ ((drainBits ((acc <<< fb) ||| v) (bits + fb) tb).2 + fb * rest.length)
            + ((((acc <<< fb) ||| v) % 2 ^ (drainBits ((acc <<< fb) ||| v) (bits + fb) tb).2)
                * 2 ^ (fb * rest.length) + VAL fb rest) := by
            rw [hlen2, hval2]
        _ = (VAL tb (drainBits ((acc <<< fb) ||| v) (bits + fb) tb).1
              * 2 ^ (drainBits ((acc <<< fb) ||| v) (bits + fb) tb).2
            + ((acc <<< fb) ||| v) % 2 ^ (drainBits ((acc <<< fb) ||| v) (bits + fb) tb).2)
              * 2 ^ (fb * rest.length) + VAL fb rest := by
            rw [pow_add]; ring
        _ = (((acc <<< fb) ||| v) % 2 ^ (bits + fb)) * 2 ^ (fb * rest.length)
            + VAL fb rest := by rw [hd4]
        _ = ((acc % 2 ^ bits) * 2 ^ fb + v) * 2 ^ (fb * rest.length) + VAL fb rest := by
            rw [hmod]
        _ = (acc % 2 ^ bits) * 2 ^ (fb * (rest.length + 1))
            + (v * 2 ^ (fb * rest.length) + VAL fb rest) := by
            rw [Nat.mul_succ, pow_add]; ring

/-- Regrouping 20 bytes into 5-bit values (with padding allowed) and
back (with no padding allowed) recovers exactly the input bytes. -/
theorem convert_bits_roundtrip (data : List Nat) (h20 : data.length = 20)
    (hb : ∀ b ∈ data, b < 256) :
    ∃ d5, convert_bits data 8 5 true = some d5 ∧ d5.length = 32 ∧
      (∀ v ∈ d5, v < 32) ∧ convert_bits d5 5 8 false = some data := by
  obtain ⟨out, acc2, bits2, hEq, hb2, hout, hlen, hval⟩ :=
    convertBitsAux_spec 8 5 (by omega) data 0 0
      (by intro x hx; have := hb x hx; omega) (by omega)
  rw [h20] at hlen
  have hbz : bits2 = 0 := by omega
  subst hbz
  have hol : out.length = 32 := by omega
  have hv5 : VAL 5 out = VAL 8 data := by
    simpa [Nat.mod_one] using hval
  refine ⟨out, ?_, hol, by intro v hv; have := hout v hv; omega, ?_⟩
  · simp only [convert_bits]
    rw [hEq]
    simp
  · obtain ⟨out2, acc3, bits3, hEq2, hb3, hout2, hlen2, hval2⟩ :=
      convertBitsAux_spec 5 8 (by omega) out 0 0 hout (by omega)
    rw [hol] at hlen2
    have hbz3 : bits3 = 0 := by omega
    subst hbz3
    have hol2 : out2.length = 20 := by omega
    have hv8 : VAL 8 out2 = VAL 8 data := by
      have : VAL 8 out2 = VAL 5 out := by simpa [Nat.mod_one] using hval2
      rw [this, hv5]
    have hout2eq : out2 = data :=
      VAL_inj 8 out2 data (by rw [hol2, h20]) hout2
        (by intro x hx; have := hb x hx; omega) hv8
    have hmask : ((acc3 <<< 8) &&& 255) = 0 := by
      rw [Nat.shiftLeft_eq, (by norm_num : (255 : Nat) = 2 ^ 8 - 1),
        Nat.and_pow_two_sub_one_eq_mod]
      simp [Nat.mul_mod_left]
    simp only [convert_bits]
    rw [hEq2, hout2eq]
    simp [hmask]

theorem nat_xor_left_comm (a b c : Nat) : a ^^^ (b ^^^ c) = b ^^^ (a ^^^ c) := by
  rw [← Nat.xor_assoc, Nat.xor_comm a b, Nat.xor_assoc]

theorem xor_shiftRight_high (chk d : Nat) (hd : d < 33554432) :
    (chk ^^^ d) >>> 25 = chk >>> 25 := by
  apply Nat.eq_of_testBit_eq
  intro i
  simp only [Nat.testBit_shiftRight, Nat.testBit_xor]
  have hlt : d < 2 ^ (25 + i) :=
    lt_of_lt_of_le ((by norm_num : (33554432 : Nat) = 2 ^ 25) ▸ hd)
      (Nat.pow_le_pow_right (by omega) (by omega))
  rw [Nat.testBit_lt_two_pow hlt]
  simp

theorem xor_and_mask (chk d : Nat) (hd : d < 33554432) :
    (chk ^^^ d) &&& 33554431 = (chk &&& 33554431) ^^^ d := by
  have h31 : (33554431 : Nat) = 2 ^ 25 - 1 := by norm_num
  rw [Nat.and_xor_distrib_right, h31, Nat.and_pow_two_sub_one_eq_mod d,
    Nat.mod_eq_of_lt hd]

theorem xor_shiftLeft_distrib (x y n : Nat) :
    (x ^^^ y) <<< n = (x <<< n) ^^^ (y <<< n) := by
  apply Nat.eq_of_testBit_eq
  intro i
  simp [Nat.testBit_shiftLeft, Nat.testBit_xor, Bool.and_xor_distrib_left]

theorem if_xor_pull (c : Prop) [Decidable c] (x g : Nat) :
    (if c then x ^^^ g else x) = x ^^^ (if c then g else 0) := by
  split <;> simp

/-- The data value only enters a checksum step as a low-bits XOR. -/
theorem polymodStep_zero_xor (chk v : Nat) :
    polymodStep chk v = polymodStep chk 0 ^^^ v := by
  unfold polymodStep
  simp only [Nat.xor_zero, Nat.and_one_is_mod, Nat.shiftRight_zero]
  by_cases h1 : chk >>> 25 % 2 = 1 <;>
    by_cases h2 : chk >>> 25 >>> 1 % 2 = 1 <;>
    by_cases h3 : chk >>> 25 >>> 2 % 2 = 1 <;>
    by_cases h4 : chk >>> 25 >>> 3 % 2 = 1 <;>
    by_cases h5 : chk >>> 25 >>> 4 % 2 = 1 <;>
    simp [h1, h2, h3, h4, h5, Nat.xor_assoc, Nat.xor_comm, nat_xor_left_comm]

/-- A XOR-difference below bit 25 shifts up by 5 through a checksum
step without touching the feedback taps. -/
theorem polymodStep_xor_high (chk v d : Nat) (hd : d < 33554432) :
    polymodStep (chk ^^^ d) v = polymodStep chk v ^^^ (d <<< 5) := by
  unfold polymodStep
  simp only [xor_shiftRight_high chk d hd, xor_and_mask chk d hd,
    xor_shiftLeft_distrib, Nat.and_one_is_mod, Nat.shiftRight_zero]
  by_cases h1 : chk >>> 25 % 2 = 1 <;>
    by_cases h2 : chk >>> 25 >>> 1 % 2 = 1 <;>
    by_cases h3 : chk >>> 25 >>> 2 % 2 = 1 <;>
    by_cases h4 : chk >>> 25 >>> 3 % 2 = 1 <;>
    by_cases h5 : chk >>> 25 >>> 4 % 2 = 1 <;>
    simp [h1, h2, h3, h4, h5, Nat.xor_assoc, Nat.xor_comm, nat_xor_left_comm]

theorem polymodAux_xor_high (vs : List Nat) :
    ∀ chk d, d * 2 ^ (5 * vs.length) < 1073741824 →
      polymodAux (chk ^^^ d) vs = polymodAux chk vs ^^^ (d <<< (5 * vs.length)) := by
  induction vs with
  | nil =>
    intro chk d _
    simp [polymodAux, Nat.shiftLeft_zero]
  | cons v t ih =>
    intro chk d hd
    simp only [List.length_cons] at hd
    have hd25 : d < 33554432 := by
      have h32 : d * 2 ^ 5 ≤ d * 2 ^ (5 * (t.length + 1)) :=
        Nat.mul_le_mul_left d (Nat.pow_le_pow_right (by omega) (by omega))
      have : (2 : Nat) ^ 5 = 32 := by norm_num
      omega
    have hshift : d <<< 5 * 2 ^ (5 * t.length) < 1073741824 := by
      rw [Nat.shiftLeft_eq]
      calc d * 2 ^ 5 * 2 ^ (5 * t.length) = d * 2 ^ (5 * (t.length + 1)) := by
            rw [Nat.mul_assoc, ← pow_add]
            ring_nf
        _ < 1073741824 := hd
    show polymodAux (polymodStep (chk ^^^ d) v) t = _
    rw [polymodStep_xor_high chk v d hd25]
    rw [ih (polymodStep chk v) (d <<< 5) hshift]
    rw [← Nat.shiftLeft_add]
    show polymodAux (polymodStep chk v) t ^^^ (d <<< (5 + 5 * t.length)) = _
    have hexp : 5 + 5 * t.length = 5 * (v :: t).length := by
      simp only [List.length_cons]
      ring
    rw [hexp]
    rfl

/-- Every checksum step stays below `2^30` when fed 5-bit values. -/
theorem polymodStep_lt (chk v : Nat) (hv : v < 32) : polymodStep chk v < 1073741824 := by
  have hmask : (chk &&& 33554431) <<< 5 < 2 ^ 30 := by
    rw [Nat.shiftLeft_eq]
    have hm : chk &&& 33554431 < 2 ^ 25 := by
      rw [(by norm_num : (33554431 : Nat) = 2 ^ 25 - 1),
        Nat.and_pow_two_sub_one_eq_mod]
      exact Nat.mod_lt _ (by norm_num)
    calc (chk &&& 33554431) * 2 ^ 5 < 2 ^ 25 * 2 ^ 5 :=
          (Nat.mul_lt_mul_right (by norm_num)).mpr hm
      _ = 2 ^ 30 := by norm_num
  have hv30 : v < 2 ^ 30 := lt_of_lt_of_le hv (by norm_num)
  have h30 : (1073741824 : Nat) = 2 ^ 30 := by norm_num
  unfold polymodStep
  rw [h30]
  simp only []
  split <;> split <;> split <;> split <;> split <;>
    (repeat' apply Nat.xor_lt_two_pow) <;>
    first
      | exact hmask
      | exact hv30
      | norm_num

theorem polymodAux_lt (vs : List Nat) :
    ∀ chk, chk < 1073741824 → (∀ v ∈ vs, v < 32) →
      polymodAux chk vs < 1073741824 := by
  induction vs with
  | nil => intro chk hc _; simpa [polymodAux] using hc
  | cons v t ih =>
    intro chk _ hv
    exact ih _ (polymodStep_lt chk v (hv v (by simp)))
      (fun x hx => hv x (by simp [hx]))

/-- XOR of a shifted value with a value below the shift is addition. -/
theorem shiftLeft_xor_eq_add (m b k : Nat) (hb : b < 2 ^ k) :
    (m <<< k) ^^^ b = m <<< k + b := by
  apply Nat.eq_of_testBit_eq
  intro i
  rw [Nat.shiftLeft_eq, Nat.mul_comm]
  rw [Nat.testBit_mul_pow_two_add m hb i]
  simp only [Nat.testBit_xor, Nat.testBit_shiftLeft, Nat.shiftLeft_eq]
  by_cases hik : i < k
  · rw [if_pos hik]
    have : ¬(i ≥ k) := by omega
    simp [this, Nat.testBit_mul_pow_two, Nat.mul_comm m]
  · rw [if_neg hik]
    have hik2 : i ≥ k := by omega
    have : b.testBit i = false :=
      Nat.testBit_lt_two_pow
        (lt_of_lt_of_le hb (Nat.pow_le_pow_right (by omega) (by omega)))
    simp [this, hik2, Nat.testBit_mul_pow_two, Nat.mul_comm m]

/-- Feeding a list of 5-bit values into the LFSR equals feeding zeros
and XOR-ing their positional value at the end (no value reaches the
feedback taps within 30 bits). -/
theorem polymodAux_vs_zeros (cs : List Nat) :
    ∀ chk, (∀ v ∈ cs, v < 32) → 5 * cs.length ≤ 30 →
      polymodAux chk cs =
        polymodAux chk (List.replicate cs.length 0) ^^^ VAL 5 cs := by
  induction cs with
  | nil => intro chk _ _; simp [VAL]
  | cons v t ih =>
    intro chk hv hlen
    have hvlt : v < 32 := hv v (by simp)
    have htlen : 5 * t.length ≤ 25 := by simp at hlen; omega
    have hvbound : v * 2 ^ (5 * t.length) < 1073741824 := by
      calc v * 2 ^ (5 * t.length) < 32 * 2 ^ (5 * t.length) :=
            (Nat.mul_lt_mul_right (Nat.pos_pow_of_pos _ (by omega))).mpr hvlt
        _ ≤ 32 * 2 ^ 25 :=
            Nat.mul_le_mul_left 32 (Nat.pow_le_pow_right (by omega) htlen)
        _ = 1073741824 := by norm_num
    show polymodAux (polymodStep chk v) t = _
    rw [polymodStep_zero_xor chk v]
    rw [polymodAux_xor_high t (polymodStep chk 0) v hvbound]
    rw [ih (polymodStep chk 0) (fun x hx => hv x (by simp [hx])) (by omega)]
    have hVAL : VAL 5 (v :: t) = (v <<< (5 * t.length)) ^^^ VAL 5 t := by
      rw [VAL_cons, shiftLeft_xor_eq_add _ _ _
        (VAL_lt 5 t (fun x hx => hv x (by simp [hx]))), Nat.shiftLeft_eq]
    rw [hVAL]
    show _ = polymodAux (polymodStep chk 0) (List.replicate t.length 0) ^^^
      ((v <<< (5 * t.length)) ^^^ VAL 5 t)
    simp [Nat.xor_assoc, Nat.xor_comm, nat_xor_left_comm]

/-- Appending the created checksum makes the bech32 polymod equal the
Bech32 constant `1`. -/
theorem polymod_append_checksum (vs : List Nat) (hvs : ∀ v ∈ vs, v < 32) :
    polymod (vs ++ (List.range 6).map
      (fun i => ((polymod (vs ++ [0, 0, 0, 0, 0, 0]) ^^^ 1) >>> (5 * (5 - i))) &&& 31)) = 1 := by
  have hP0 : polymod (vs ++ [0, 0, 0, 0, 0, 0]) < 1073741824 := by
    unfold polymod polymodAux
    apply polymodAux_lt
    · norm_num
    · intro x hx
      rcases List.mem_append.mp hx with hx | hx
      · exact hvs x hx
      · simp at hx
        omega
  have hpm30 : polymod (vs ++ [0, 0, 0, 0, 0, 0]) ^^^ 1 < 1073741824 := by
    have : (1073741824 : Nat) = 2 ^ 30 := by norm_num
    rw [this] at hP0 ⊢
    exact Nat.xor_lt_two_pow hP0 (by norm_num)
  set pm := polymod (vs ++ [0, 0, 0, 0, 0, 0]) ^^^ 1 with hpmdef
  have hcs : (List.range 6).map (fun i => (pm >>> (5 * (5 - i))) &&& 31) =
      [pm >>> 25 &&& 31, pm >>> 20 &&& 31, pm >>> 15 &&& 31,
        pm >>> 10 &&& 31, pm >>> 5 &&& 31, pm >>> 0 &&& 31] := rfl
  rw [hcs]
  have hstep1 : polymod (vs ++ [pm >>> 25 &&& 31, pm >>> 20 &&& 31, pm >>> 15 &&& 31,
      pm >>> 10 &&& 31, pm >>> 5 &&& 31, pm >>> 0 &&& 31]) =
      polymodAux (polymodAux 1 vs) [pm >>> 25 &&& 31, pm >>> 20 &&& 31, pm >>> 15 &&& 31,
        pm >>> 10 &&& 31, pm >>> 5 &&& 31, pm >>> 0 &&& 31] := by
    unfold polymod polymodAux
    rw [List.foldl_append]
  rw [hstep1]
  rw [polymodAux_vs_zeros _ _ (by
      intro x hx
      simp only [List.mem_cons, List.not_mem_nil, or_false] at hx
      have h31 : ∀ y : Nat, y &&& 31 ≤ 31 := fun y => Nat.and_le_right
      rcases hx with rfl | rfl | rfl | rfl | rfl | rfl <;>
        exact lt_of_le_of_lt (h31 _) (by norm_num))
    (by simp)]
  have hzeros : polymodAux (polymodAux 1 vs)
      (List.replicate ([pm >>> 25 &&& 31, pm >>> 20 &&& 31, pm >>> 15 &&& 31,
        pm >>> 10 &&& 31, pm >>> 5 &&& 31, pm >>> 0 &&& 31].length) 0) = pm ^^^ 1 := by
    show polymodAux (polymodAux 1 vs) [0, 0, 0, 0, 0, 0] = pm ^^^ 1
    have : polymodAux (polymodAux 1 vs) [0, 0, 0, 0, 0, 0] =
        polymod (vs ++ [0, 0, 0, 0, 0, 0]) := by
      unfold polymod polymodAux
      rw [List.foldl_append]
    rw [this, hpmdef]
    simp [Nat.xor_assoc]
  rw [hzeros]
  have hVALcs : VAL 5 [pm >>> 25 &&& 31, pm >>> 20 &&& 31, pm >>> 15 &&& 31,
      pm >>> 10 &&& 31, pm >>> 5 &&& 31, pm >>> 0 &&& 31] = pm := by
    have hand : ∀ y : Nat, y &&& 31 = y % 32 := fun y => by
      rw [(by norm_num : (31 : Nat) = 2 ^ 5 - 1), Nat.and_pow_two_sub_one_eq_mod]
    have hshr : ∀ k : Nat, pm >>> k = pm / 2 ^ k := fun k =>
      Nat.shiftRight_eq_div_pow pm k
    simp only [VAL, List.foldl_cons, List.foldl_nil, hand, hshr]
    norm_num
    omega
  rw [hVALcs]
  rw [Nat.xor_comm pm 1, Nat.xor_assoc]
  simp

theorem charsetChar_ne_one : ∀ v : Fin 32, CHARSET.getD v.val '?' ≠ '1' := by decide

theorem charsetChar_not_upper : ∀ v : Fin 32,
    isUpperAlpha (CHARSET.getD v.val '?') = false := by decide

theorem charsetChar_toLower : ∀ v : Fin 32,
    (CHARSET.getD v.val '?').toLower = CHARSET.getD v.val '?' := by decide

theorem charsetRev_charsetChar : ∀ v : Fin 32,
    charsetRev (CHARSET.getD v.val '?') = some v.val := by decide

theorem findLastOne_of_not_mem (l : List Char) (h : '1' ∉ l) :
    findLastOne l = none := by
  induction l with
  | nil => rfl
  | cons c t ih =>
    have hc : c ≠ '1' := fun hc => h (by simp [hc])
    have ht : '1' ∉ t := fun ht => h (by simp [ht])
    simp [findLastOne, ih ht, hc]

theorem findLastOne_append (p l : List Char) (h : '1' ∉ l) :
    findLastOne (p ++ '1' :: l) = some p.length := by
  induction p with
  | nil =>
    show findLastOne ('1' :: l) = some 0
    simp [findLastOne, findLastOne_of_not_mem l h]
  | cons c p ih =>
    show findLastOne (c :: (p ++ '1' :: l)) = some (p.length + 1)
    simp [findLastOne, ih]

theorem mapCharsetRev_map (l : List Nat) (h : ∀ v ∈ l, v < 32) :
    mapCharsetRev (l.map (fun v => CHARSET.getD v '?')) = some l := by
  induction l with
  | nil => rfl
  | cons v t ih =>
    have hv : v < 32 := h v (by simp)
    simp only [List.map_cons, mapCharsetRev]
    rw [charsetRev_charsetChar ⟨v, hv⟩, ih (fun x hx => h x (by simp [hx]))]

theorem bech32CreateChecksum_length (hrp : List Char) (data : List Nat) :
    (bech32CreateChecksum hrp data).length = 6 := by
  simp [bech32CreateChecksum]

theorem bech32CreateChecksum_lt (hrp : List Char) (data : List Nat) :
    ∀ v ∈ bech32CreateChecksum hrp data, v < 32 := by
  intro v hv
  simp only [bech32CreateChecksum, List.mem_map] at hv
  obtain ⟨i, _, rfl⟩ := hv
  exact lt_of_le_of_lt Nat.and_le_right (by norm_num)

/-- Decoding an encoded address recovers the HRP and data exactly
(for the `"avax"` HRP and any 5-bit data values). -/
theorem bech32_decode_encode (data : List Nat) (hd : ∀ v ∈ data, v < 32) :
    bech32Decode (bech32Encode ['a', 'v', 'a', 'x'] data) =
      some (['a', 'v', 'a', 'x'], data) := by
  have hcs32 : ∀ v ∈ bech32CreateChecksum ['a', 'v', 'a', 'x'] data, v < 32 :=
    bech32CreateChecksum_lt _ _
  have hdc32 : ∀ v ∈ data ++ bech32CreateChecksum ['a', 'v', 'a', 'x'] data, v < 32 := by
    intro v hv
    rcases List.mem_append.mp hv with h | h
    exacts [hd v h, hcs32 v h]
  have henc : bech32Encode ['a', 'v', 'a', 'x'] data =
      ['a', 'v', 'a', 'x', '1'] ++
        (data ++ bech32CreateChecksum ['a', 'v', 'a', 'x'] data).map
          (fun v => CHARSET.getD v '?') := rfl
  rw [henc]
  have hup : (['a', 'v', 'a', 'x', '1'] ++
      (data ++ bech32CreateChecksum ['a', 'v', 'a', 'x'] data).map
        (fun v => CHARSET.getD v '?')).any isUpperAlpha = false := by
    rw [List.any_eq_false]
    intro c hc
    rcases List.mem_append.mp hc with hc | hc
    · simp only [List.mem_cons, List.not_mem_nil, or_false] at hc
      rcases hc with rfl | rfl | rfl | rfl | rfl <;> decide
    · obtain ⟨v, hv, rfl⟩ := List.mem_map.mp hc
      simpa using charsetChar_not_upper ⟨v, hdc32 v hv⟩
  have hlower : (['a', 'v', 'a', 'x', '1'] ++
      (data ++ bech32CreateChecksum ['a', 'v', 'a', 'x'] data).map
        (fun v => CHARSET.getD v '?')).map Char.toLower =
      ['a', 'v', 'a', 'x', '1'] ++
        (data ++ bech32CreateChecksum ['a', 'v', 'a', 'x'] data).map
          (fun v => CHARSET.getD v '?') := by
    rw [List.map_append]
    have h1 : (['a', 'v', 'a', 'x', '1'] : List Char).map Char.toLower =
        ['a', 'v', 'a', 'x', '1'] := by decide
    have h2 : ((data ++ bech32CreateChecksum ['a', 'v', 'a', 'x'] data).map
        (fun v => CHARSET.getD v '?')).map Char.toLower =
        (data ++ bech32CreateChecksum ['a', 'v', 'a', 'x'] data).map
          (fun v => CHARSET.getD v '?') := by
      rw [List.map_map]
      apply List.map_congr_left
      intro v hv
      show Char.toLower (CHARSET.getD v '?') = CHARSET.getD v '?'
      exact charsetChar_toLower ⟨v, hdc32 v hv⟩
    rw [h1, h2]
  have hnotone : '1' ∉ (data ++ bech32CreateChecksum ['a', 'v', 'a', 'x'] data).map
      (fun v => CHARSET.getD v '?') := by
    intro hmem
    obtain ⟨v, hv, hveq⟩ := List.mem_map.mp hmem
    exact charsetChar_ne_one ⟨v, hdc32 v hv⟩ hveq
  have hfind : findLastOne (['a', 'v', 'a', 'x', '1'] ++
      (data ++ bech32CreateChecksum ['a', 'v', 'a', 'x'] data).map
        (fun v => CHARSET.getD v '?')) = some 4 :=
    findLastOne_append ['a', 'v', 'a', 'x'] _ hnotone
  unfold bech32Decode
  simp only []
  rw [if_neg (by rw [hup]; simp)]
  rw [hlower, hfind]
  simp only [Option.some.injEq]
  have htake : (['a', 'v', 'a', 'x', '1'] ++
      (data ++ bech32CreateChecksum ['a', 'v', 'a', 'x'] data).map
        (fun v => CHARSET.getD v '?')).take 4 = ['a', 'v', 'a', 'x'] := rfl
  have hdrop : (['a', 'v', 'a', 'x', '1'] ++
      (data ++ bech32CreateChecksum ['a', 'v', 'a', 'x'] data).map
        (fun v => CHARSET.getD v '?')).drop (4 + 1) =
      (data ++ bech32CreateChecksum ['a', 'v', 'a', 'x'] data).map
        (fun v => CHARSET.getD v '?') := rfl
  rw [htake, hdrop]
  have hlen : ((data ++ bech32CreateChecksum ['a', 'v', 'a', 'x'] data).map
      (fun v => CHARSET.getD v '?')).length = data.length + 6 := by
    simp [bech32CreateChecksum_length]
  rw [if_neg (by
    rw [hlen]
    simp)]
  rw [if_neg (by decide)]
  rw [mapCharsetRev_map _ hdc32]
  simp only [Option.some.injEq]
  have hvs32 : ∀ v ∈ hrpExpand ['a', 'v', 'a', 'x'] ++ data, v < 32 := by
    intro v hv
    rcases List.mem_append.mp hv with h | h
    · have hexp : hrpExpand ['a', 'v', 'a', 'x'] = [3, 3, 3, 3, 0, 1, 22, 1, 24] := by
        decide
      rw [hexp] at h
      simp only [List.mem_cons, List.not_mem_nil, or_false] at h
      rcases h with rfl | rfl | rfl | rfl | rfl | rfl | rfl | rfl | rfl <;> omega
    · exact hd v h
  have hpoly : polymod (hrpExpand ['a', 'v', 'a', 'x'] ++
      (data ++ bech32CreateChecksum ['a', 'v', 'a', 'x'] data)) = 1 := by
    rw [← List.append_assoc]
    exact polymod_append_checksum (hrpExpand ['a', 'v', 'a', 'x'] ++ data) hvs32
  rw [if_pos (Or.inl hpoly)]
  have htk : (data ++ bech32CreateChecksum ['a', 'v', 'a', 'x'] data).take
      ((data ++ bech32CreateChecksum ['a', 'v', 'a', 'x'] data).length - 6) = data := by
    have : (data ++ bech32CreateChecksum ['a', 'v', 'a', 'x'] data).length - 6 =
        data.length := by
      simp [bech32CreateChecksum_length]
    rw [this, List.take_left]
  rw [htk]

/-- Decoding a freshly constructed `"<c>-"`-prefixed avax address
recovers the converted payload, for any single-letter alias other
than `-` (the encoded part never starts with the alias). -/
theorem avax_decode_of_alias (c : Char) (hc1 : c ≠ '-')
    (d5 short : List Nat) (hd5 : ∀ v ∈ d5, v < 32)
    (hback : convert_bits d5 5 8 false = some short) :
    avax_address_to_short_bytes [c]
        ([c] ++ ['-'] ++ bech32Encode ['a', 'v', 'a', 'x'] d5) =
      .ok (['a', 'v', 'a', 'x'], short) := by
  unfold avax_address_to_short_bytes
  rw [if_neg (by simp)]
  simp only []
  rw [if_neg (by simp [hc1])]
  have htrim : trimStartMatches ([c] ++ ['-'])
      ([c] ++ ['-'] ++ bech32Encode ['a', 'v', 'a', 'x'] d5) =
      bech32Encode ['a', 'v', 'a', 'x'] d5 := by
    rw [trimStartMatches_eq, if_pos ⟨by simp, by simp [List.isPrefixOf]⟩]
    show trimStartMatches [c, '-'] (bech32Encode ['a', 'v', 'a', 'x'] d5) = _
    rw [trimStartMatches_eq, if_neg]
    intro ⟨_, hpfx⟩
    have : bech32Encode ['a', 'v', 'a', 'x'] d5 =
        'a' :: (['v', 'a', 'x', '1'] ++
          (d5 ++ bech32CreateChecksum ['a', 'v', 'a', 'x'] d5).map
            (fun v => CHARSET.getD v '?')) := rfl
    rw [this] at hpfx
    simp [List.isPrefixOf] at hpfx
  rw [htrim]
  unfold bech32DecodeToShort
  rw [bech32_decode_encode d5 hd5]
  simp only []
  rw [hback]

/-- C4: for every 20-byte short id and every chain alias in
`{X, P, C}`, constructing the bech32 address for network id 1 and
decoding it with `avax_address_to_short_bytes` recovers exactly the
short bytes, and the returned human-readable part is the network's
designated HRP (`"avax"` for network id 1). -/
theorem avax_address_roundtrip (short : List Nat) (chain_alias : List Char)
    (hlen : short.length = 20) (hb : ∀ b ∈ short, b < 256)
    (ha : chain_alias = ['X'] ∨ chain_alias = ['P'] ∨ chain_alias = ['C']) :
    ∃ addr, to_avax_address 1 chain_alias short = some addr ∧
      avax_address_to_short_bytes chain_alias addr = .ok (networkHrp 1, short) := by
  obtain ⟨d5, hconv, hd5len, hd5lt, hback⟩ := convert_bits_roundtrip short hlen hb
  refine ⟨chain_alias ++ ['-'] ++ bech32Encode ['a', 'v', 'a', 'x'] d5, ?_, ?_⟩
  · unfold to_avax_address
    rw [hconv]
    rfl
  · have hhrp : networkHrp 1 = ['a', 'v', 'a', 'x'] := rfl
    rw [hhrp]
    rcases ha with rfl | rfl | rfl <;>
      exact avax_decode_of_alias _ (by decide) d5 short hd5lt hback

/-- Witness for C4: the roundtrip applied to the concrete short id
`[0, 1, ..., 19]` with alias `X`. -/
theorem avax_address_roundtrip_witness :
    ((List.range 20).length = 20 ∧ (∀ b ∈ List.range 20, b < 256) ∧
      (['X'] = ['X'] ∨ ['X'] = ['P'] ∨ ['X'] = ['C'])) ∧
    (∃ addr, to_avax_address 1 ['X'] (List.range 20) = some addr ∧
      avax_address_to_short_bytes ['X'] addr = .ok (networkHrp 1, List.range 20)) :=
  ⟨⟨by decide, by decide, Or.inl rfl⟩,
    avax_address_roundtrip (List.range 20) ['X'] (by decide) (by decide) (Or.inl rfl)⟩

/-- C10: with an empty chain alias, `avax_address_to_short_bytes`
trims surrounding whitespace before bech32 decoding; with alias `X`,
every leading repetition of `"X-"` is removed, so an address starting
`"X-X-"` decodes exactly as one starting `"X-"`. -/
theorem avax_address_trimming (addr rest : List Char) :
    avax_address_to_short_bytes [] addr = bech32DecodeToShort (rustTrim addr) ∧
    avax_address_to_short_bytes ['X'] ('X' :: '-' :: 'X' :: '-' :: rest) =
      avax_address_to_short_bytes ['X'] ('X' :: '-' :: rest) := by
  constructor
  · rfl
  · show bech32DecodeToShort (trimStartMatches ['X', '-'] ('X' :: '-' :: 'X' :: '-' :: rest))
      = bech32DecodeToShort (trimStartMatches ['X', '-'] ('X' :: '-' :: rest))
    congr 1
    rw [trimStartMatches_eq ['X', '-'] ('X' :: '-' :: 'X' :: '-' :: rest),
      if_pos ⟨by simp, by simp [List.isPrefixOf]⟩]
    rfl

/-- C8: `serialize_with_header` fails with the typed unknown-type
error (an `Except.error`, never a panic, producing no bytes) exactly
when the variant's message-kind name is absent from the registry it
consults; the global registry contains both shipped names, so the
shipped variants never fail. -/
theorem serialize_fails_iff_type_absent (registry : List (String × Nat))
    (m : app_response.Message) (m' : state_summary_frontier.Message) :
    ((app_response.serializeWith registry m = .error .unknownType ↔
        registry.lookup "app_response" = none) ∧
      (state_summary_frontier.serializeWith registry m' = .error .unknownType ↔
        registry.lookup "state_summary_frontier" = none)) ∧
    (TYPES.lookup "app_response" = some 21 ∧
      TYPES.lookup "state_summary_frontier" = some 24) := by
  refine ⟨⟨?_, ?_⟩, by decide, by decide⟩
  · unfold app_response.serializeWith
    cases h : registry.lookup "app_response" <;> simp
  · unfold state_summary_frontier.serializeWith
    cases h : registry.lookup "state_summary_frontier" <;> simp

/-- C3: the StateSummaryFrontier variant with all-zero chain id,
request id 7 and payload `[0x01,0x02,0x03]` serializes successfully to
a byte string whose type-code byte (the byte right after the length
header) is `0x18` and whose 4-byte big-endian total-length header is
`0x0000002d`. -/
theorem state_summary_frontier_test_vector :
    ∃ out,
      (state_summary_frontier.Message.mk Id.empty 7 [1, 2, 3]).serialize_with_header
          = .ok out ∧
        out[4]? = some 24 ∧ readBE32 (out.take 4) = 45 := by
  refine ⟨_, rfl, by decide, by decide⟩

end Avalanche

